import Mathlib

/-!
Verification development for the KillPhilosophy browser catalog
(`database-manager-compact.js` and the DeepSearch module).

The JavaScript code is shallowly embedded as executable Lean functions:

* JS strings are Lean `String`s; character-level algorithms run on `List Char`.
* JS `this.academics` (an insertion-ordered object keyed by normalized name)
  is an insertion-ordered association list `List (String × Academic)`.
  Optional/absent array fields of records are modelled as empty lists, which
  is observationally equivalent for every operation modelled here.
* `localStorage` is a record of five slots.  A stored string is modelled by
  `StoredVal`: `.good j` stands for the serialization of the JSON value `j`
  (so `JSON.parse` recovers `j`), `.bad` stands for a string on which
  `JSON.parse` throws.  `StorageMode` selects how the substrate behaves on
  writes of the primary academics slot: healthy, silently-corrupting
  (models the write-back-verification-failure scenario), or throwing a
  `QuotaExceededError`.
* `new Date().toISOString()` is modelled as an integer timestamp `env.now`;
  ISO-8601 strings compare exactly like their timestamps.
* JS numbers that can be `null`/absent (paper years) are `Option Int`;
  JS truthiness of a year is `yearTruthy` (`0`, `null` and `undefined`
  are falsy).
-/

namespace KP

/-! ## Character and string utilities (JS string primitives) -/

/-- JS `\s` whitespace class (ASCII part, which is all the code relies on). -/
def isWs (c : Char) : Bool :=
  c = ' ' || c = '\t' || c = '\n' || c = '\r' || c = (Char.ofNat 12) || c = (Char.ofNat 11)

/-- Lower-case a character list, JS `String.prototype.toLowerCase` (ASCII). -/
def lowerChars (cs : List Char) : List Char := cs.map Char.toLower

/-- Lower-case a string. -/
def lowerStr (s : String) : String := ⟨lowerChars s.data⟩

/-- Does `hay` start with `nd`? -/
def startsWithChars : List Char → List Char → Bool
  | _, [] => true
  | [], _ :: _ => false
  | h :: hs, n :: ns => h = n && startsWithChars hs ns

/-- Case-insensitive `startsWithChars`. -/
def startsWithCi (hay nd : List Char) : Bool :=
  startsWithChars (lowerChars hay) (lowerChars nd)

/-- Index of the first occurrence of `nd` in `hay`, or `none`.
JS `String.prototype.indexOf` (restricted to the found/not-found index). -/
def firstIdxChars : List Char → List Char → Option Nat
  | [], nd => if nd.isEmpty then some 0 else none
  | h :: hs, nd =>
    if startsWithChars (h :: hs) nd then some 0
    else (firstIdxChars hs nd).map (· + 1)

/-- JS `hay.indexOf(nd)` returning `-1` when absent. -/
def strIndexOf (hay nd : String) : Int :=
  match firstIdxChars hay.data nd.data with
  | some n => (n : Int)
  | none => -1

/-- JS `hay.includes(nd)` (equivalently `hay.indexOf(nd) !== -1`). -/
def strIncludes (hay nd : String) : Bool :=
  (firstIdxChars hay.data nd.data).isSome

/-- JS `String.prototype.trim`. -/
def trimChars (cs : List Char) : List Char :=
  ((cs.dropWhile isWs).reverse.dropWhile isWs).reverse

/-- Trim a string. -/
def trimStr (s : String) : String := ⟨trimChars s.data⟩

/-- Lexicographic comparison on character lists. -/
def charsLt : List Char → List Char → Bool
  | [], [] => false
  | [], _ :: _ => true
  | _ :: _, [] => false
  | a :: as, b :: bs => if a < b then true else if b < a then false else charsLt as bs

/-- JS `a.localeCompare(b)` modelled as ordinary lexicographic comparison. -/
def localeCompare (a b : String) : Int :=
  if charsLt a.data b.data then -1 else if charsLt b.data a.data then 1 else 0

/-- Boolean `a <= b` in the same lexicographic order. -/
def strLeB (a b : String) : Bool := !charsLt b.data a.data

/-! ## JSON values

`JSON.parse`/`JSON.stringify` are host primitives; they are modelled on the
value level: a healthy stored string is `.good j` and parsing returns `j`. -/

inductive Json where
  | null : Json
  | bool (b : Bool) : Json
  | num (n : Int) : Json
  | str (s : String) : Json
  | arr (xs : List Json) : Json
  | obj (kvs : List (String × Json)) : Json
deriving Inhabited

/-- A value sitting in a `localStorage` slot: either the serialization of a
JSON value, or a string `JSON.parse` rejects. -/
inductive StoredVal where
  | good (j : Json) : StoredVal
  | bad : StoredVal
deriving Inhabited

/-- `JSON.parse` on a stored string. -/
def parseStored : StoredVal → Option Json
  | .good j => some j
  | .bad => none

/-- JS `parsed && typeof parsed === 'object'` (arrays and plain objects pass,
`null`, numbers, booleans and strings do not). -/
def jsTruthyObject : Json → Bool
  | .obj _ => true
  | .arr _ => true
  | _ => false

/-- Field access `j.f` on a parsed JSON value (`undefined` is `none`). -/
def getField (j : Json) (f : String) : Option Json :=
  match j with
  | .obj kvs => (kvs.find? (fun kv => kv.1 = f)).map (·.2)
  | _ => none

/-! ## The data model -/

/-- A paper `{title, year, coauthors}`. `year = none` models `null`/absent. -/
structure Paper where
  title : String
  year : Option Int
  coauthors : List String
deriving DecidableEq, Inhabited

/-- An event `{title, year, location}`. -/
structure Event where
  title : String
  year : Option Int
  location : String
deriving DecidableEq, Inhabited

/-- JS truthiness of a year value (`0`, `null`, `undefined` are falsy). -/
def yearTruthy : Option Int → Bool
  | none => false
  | some y => y ≠ 0

/-- An academic record. Absent array/object fields are modelled as empty. -/
structure Academic where
  name : String
  bio : String
  taxonomies : List (String × List String)
  papers : List Paper
  events : List Event
  connections : List String
deriving DecidableEq, Inhabited

/-- A novelty tile as passed to `addNoveltyTile` (`date` may be absent). -/
structure TileIn where
  title : String
  content : String
  date : Option Int
  type : String
deriving DecidableEq, Inhabited

/-- A stored novelty tile (its `date` has been defaulted). -/
structure Tile where
  title : String
  content : String
  date : Int
  type : String
deriving DecidableEq, Inhabited

/-- The in-memory state of the `DatabaseManager`. -/
structure DB where
  academics : List (String × Academic)
  noveltyTiles : List Tile
  favorites : List String
  pendingSubmissions : List Json
  taxonomyCategories : List (String × List String)
deriving Inhabited

/-- The five `localStorage` slots used by the manager. -/
structure Storage where
  academicsSlot : Option StoredVal
  backupSlot : Option StoredVal
  tilesSlot : Option StoredVal
  favoritesSlot : Option StoredVal
  submissionsSlot : Option StoredVal
deriving Inhabited

/-- Behaviour of the storage substrate on writes of the academics slot. -/
inductive StorageMode where
  | ok : StorageMode
  | corruptAcademics : StorageMode
  | quotaAcademics : StorageMode
deriving DecidableEq, Inhabited

/-- Ambient execution environment: substrate behaviour, `localStorage`
support flag, and the current timestamp. -/
structure Env where
  mode : StorageMode
  supported : Bool
  now : Int
deriving DecidableEq, Inhabited

/-- Full system state: in-memory manager plus persisted slots. -/
structure Sys where
  db : DB
  storage : Storage
deriving Inhabited

/-! ## Association-list helpers for object-valued state -/

/-- First binding of `k` (JS property lookup). -/
def lookupA {β : Type} (k : String) : List (String × β) → Option β
  | [] => none
  | (k', v) :: rest => if k' = k then some v else lookupA k rest

/-- Replace the first binding of `k` (JS property assignment on an existing
property); identity when `k` is absent. -/
def updateA {β : Type} (k : String) (v : β) : List (String × β) → List (String × β)
  | [] => []
  | (k', v') :: rest =>
    if k' = k then (k', v) :: rest else (k', v') :: updateA k v rest

end KP

namespace KP

/-! ## Serialization of records (`JSON.stringify`/`JSON.parse` value level)

The typed catalog is encoded into `Json` when written to a slot and decoded
when a parsed object is assigned back to `this.academics`.  The decoders model
the untyped JS value flowing back into the manager; a JSON shape that is not a
record catalog cannot be represented in the typed state and is treated as a
failed restore/import. -/

def encOptInt : Option Int → Json
  | none => .null
  | some n => .num n

def encPaper (p : Paper) : Json :=
  .obj [("title", .str p.title), ("year", encOptInt p.year),
        ("coauthors", .arr (p.coauthors.map .str))]

def encEvent (e : Event) : Json :=
  .obj [("title", .str e.title), ("year", encOptInt e.year),
        ("location", .str e.location)]

def encTaxonomies (tx : List (String × List String)) : Json :=
  .obj (tx.map (fun p => (p.1, .arr (p.2.map .str))))

def encAcademic (a : Academic) : Json :=
  .obj [("name", .str a.name), ("bio", .str a.bio),
        ("taxonomies", encTaxonomies a.taxonomies),
        ("papers", .arr (a.papers.map encPaper)),
        ("events", .arr (a.events.map encEvent)),
        ("connections", .arr (a.connections.map .str))]

def encodeCatalog (acs : List (String × Academic)) : Json :=
  .obj (acs.map (fun p => (p.1, encAcademic p.2)))

def encTile (t : Tile) : Json :=
  .obj [("title", .str t.title), ("content", .str t.content),
        ("date", .num t.date), ("type", .str t.type)]

def encodeTiles (ts : List Tile) : Json := .arr (ts.map encTile)

def encodeFavorites (fs : List String) : Json := .arr (fs.map .str)

def decStr : Json → Option String
  | .str s => some s
  | _ => none

def decOptInt : Json → Option (Option Int)
  | .null => some none
  | .num n => some (some n)
  | _ => none

/-- Decode every element of a JSON list. -/
def decList {α : Type} (d : Json → Option α) : List Json → Option (List α)
  | [] => some []
  | j :: js =>
    match d j, decList d js with
    | some x, some xs => some (x :: xs)
    | _, _ => none

def decStrList : Json → Option (List String)
  | .arr xs => decList decStr xs
  | _ => none

def decPaper (j : Json) : Option Paper :=
  match (getField j "title").bind decStr, (getField j "year").bind decOptInt,
        (getField j "coauthors").bind decStrList with
  | some t, some y, some co => some ⟨t, y, co⟩
  | _, _, _ => none

def decEvent (j : Json) : Option Event :=
  match (getField j "title").bind decStr, (getField j "year").bind decOptInt,
        (getField j "location").bind decStr with
  | some t, some y, some l => some ⟨t, y, l⟩
  | _, _, _ => none

def decTaxPairs : List (String × Json) → Option (List (String × List String))
  | [] => some []
  | (k, v) :: rest =>
    match decStrList v, decTaxPairs rest with
    | some vs, some tl => some ((k, vs) :: tl)
    | _, _ => none

def decTaxonomies : Json → Option (List (String × List String))
  | .obj kvs => decTaxPairs kvs
  | _ => none

def decAcademic (j : Json) : Option Academic :=
  match (getField j "name").bind decStr, (getField j "bio").bind decStr,
        (getField j "taxonomies").bind decTaxonomies with
  | some nm, some bi, some tx =>
    match (getField j "papers").bind (fun x => match x with | .arr xs => decList decPaper xs | _ => none),
          (getField j "events").bind (fun x => match x with | .arr xs => decList decEvent xs | _ => none),
          (getField j "connections").bind decStrList with
    | some ps, some es, some cs => some ⟨nm, bi, tx, ps, es, cs⟩
    | _, _, _ => none
  | _, _, _ => none

def decCatPairs : List (String × Json) → Option (List (String × Academic))
  | [] => some []
  | (k, v) :: rest =>
    match decAcademic v, decCatPairs rest with
    | some a, some tl => some ((k, a) :: tl)
    | _, _ => none

def decodeCatalog : Json → Option (List (String × Academic))
  | .obj kvs => decCatPairs kvs
  | _ => none

/-! ## `_normalizeNameKey` -/

/-- One pass of `replace(/\s+/g, '-')`: each maximal whitespace run becomes a
single hyphen. -/
def wsToHyphen (prevWs : Bool) : List Char → List Char
  | [] => []
  | c :: cs =>
    if isWs c then
      if prevWs then wsToHyphen true cs else '-' :: wsToHyphen true cs
    else c :: wsToHyphen false cs

/-- JS `\w` character class. -/
def isWordChar (c : Char) : Bool :=
  (c ≥ 'a' && c ≤ 'z') || (c ≥ 'A' && c ≤ 'Z') || (c ≥ '0' && c ≤ '9') || c = '_'

/-- `_normalizeNameKey`: lower-case, whitespace runs to `-`, strip `[^\w-]`. -/
def normalizeNameKey (name : String) : String :=
  if name = "" then ""
  else ⟨(wsToHyphen false (lowerChars name.data)).filter
          (fun c => isWordChar c || c = '-')⟩

/-! ## The storage substrate -/

/-- The five `localStorage` keys the manager writes. -/
inductive SlotKey where
  | academics | backup | tiles | favorites | submissions
deriving DecidableEq, Inhabited

def writeSlot (k : SlotKey) (v : StoredVal) (st : Storage) : Storage :=
  match k with
  | .academics => { st with academicsSlot := some v }
  | .backup => { st with backupSlot := some v }
  | .tiles => { st with tilesSlot := some v }
  | .favorites => { st with favoritesSlot := some v }
  | .submissions => { st with submissionsSlot := some v }

/-- `localStorage.setItem`.  `none` models a thrown `QuotaExceededError`.
Fault modes only affect the primary academics slot. -/
def setItem (env : Env) (k : SlotKey) (v : StoredVal) (st : Storage) : Option Storage :=
  match k, env.mode with
  | .academics, .corruptAcademics => some (writeSlot .academics .bad st)
  | .academics, .quotaAcademics => none
  | _, _ => some (writeSlot k v st)

/-- `_createBackup`: copy the persisted academics value into the backup slot
(errors are swallowed). -/
def createBackup (env : Env) (st : Storage) : Storage :=
  if !env.supported then st
  else
    match st.academicsSlot with
    | none => st
    | some cur =>
      match setItem env .backup cur st with
      | some st' => st'
      | none => st

/-- `_restoreFromBackup`: parse the backup slot and, when it is a truthy
object, assign it to `this.academics` and re-persist it. -/
def restoreFromBackup (env : Env) (sys : Sys) : Bool × Sys :=
  if !env.supported then (false, sys)
  else
    match sys.storage.backupSlot with
    | none => (false, sys)
    | some sv =>
      match parseStored sv with
      | none => (false, sys)
      | some j =>
        if jsTruthyObject j then
          match decodeCatalog j with
          | some cat =>
            let sys' : Sys := { sys with db := { sys.db with academics := cat } }
            match setItem env .academics sv sys'.storage with
            | some st' => (true, { sys' with storage := st' })
            | none => (false, sys')
          | none => (false, sys)
        else (false, sys)

/-! ## Stable sorting (`Array.prototype.sort`)

ECMAScript requires `sort` to be stable; with a consistent comparator the
result is the unique stably sorted permutation of the input, which this
insertion sort computes (`le a b` means `comparator(a,b) <= 0`). -/

def insLe {α : Type} (le : α → α → Bool) (x : α) : List α → List α
  | [] => [x]
  | y :: ys => if le y x && !le x y then y :: insLe le x ys else x :: y :: ys

def isortLe {α : Type} (le : α → α → Bool) : List α → List α
  | [] => []
  | x :: xs => insLe le x (isortLe le xs)

/-- Tile comparator `(a, b) => new Date(b.date) - new Date(a.date)` as a
`<=`-test: newest first. -/
def tileSortLe (a b : Tile) : Bool := b.date - a.date ≤ 0

end KP

namespace KP

/-! ## `saveToLocalStorage` -/

/-- The `QuotaExceededError` handler inside `saveToLocalStorage` (trim the
tiles to the 20 most recent, re-persist them, retry the primary write). -/
def saveQuotaRecovery (env : Env) (sys : Sys) : Bool × Sys :=
  let step : Bool × Sys :=
    if sys.db.noveltyTiles.length > 20 then
      let trimmed := (isortLe tileSortLe sys.db.noveltyTiles).take 20
      let sys' : Sys := { sys with db := { sys.db with noveltyTiles := trimmed } }
      match setItem env .tiles (.good (encodeTiles trimmed)) sys'.storage with
      | some st => (true, { sys' with storage := st })
      | none => (false, sys')
    else (true, sys)
  match step with
  | (false, sys') => (false, sys')
  | (true, sys') =>
    match setItem env .academics (.good (encodeCatalog sys'.db.academics)) sys'.storage with
    | some st => (true, { sys' with storage := st })
    | none => (false, sys')

/-- The verification failure tail of `saveToLocalStorage`: restore from
backup and report failure. -/
def restoreAndFail (env : Env) (sys : Sys) : Bool × Sys :=
  (false, (restoreFromBackup env sys).2)

/-- `saveToLocalStorage`: back up, write all four collections, read the
academics value back and verify it parses to a truthy object; on
verification failure restore from backup; on quota overflow trim the
tiles and retry the primary write once. -/
def saveToLocalStorage (env : Env) (sys : Sys) : Bool × Sys :=
  if !env.supported then (false, sys)
  else
    let st0 := createBackup env sys.storage
    match setItem env .academics (.good (encodeCatalog sys.db.academics)) st0 with
    | none => saveQuotaRecovery env { sys with storage := st0 }
    | some st1 =>
      let recentTiles := (isortLe tileSortLe sys.db.noveltyTiles).take 50
      match setItem env .tiles (.good (encodeTiles recentTiles)) st1 with
      | none => saveQuotaRecovery env { sys with storage := st1 }
      | some st2 =>
        match setItem env .favorites (.good (encodeFavorites sys.db.favorites)) st2 with
        | none => saveQuotaRecovery env { sys with storage := st2 }
        | some st3 =>
          match setItem env .submissions (.good (.arr sys.db.pendingSubmissions)) st3 with
          | none => saveQuotaRecovery env { sys with storage := st3 }
          | some st4 =>
            let sys4 : Sys := { sys with storage := st4 }
            match st4.academicsSlot with
            | none => restoreAndFail env sys4
            | some sv =>
              match parseStored sv with
              | none => restoreAndFail env sys4
              | some j =>
                if jsTruthyObject j then (true, sys4) else restoreAndFail env sys4

/-! ## `addNoveltyTile` -/

/-- Default the `date` field of an incoming tile to the current timestamp. -/
def materializeTile (env : Env) (t : TileIn) : Tile :=
  { title := t.title, content := t.content, date := t.date.getD env.now, type := t.type }

/-- `addNoveltyTile`: prepend the tile, cap the list at 100, persist. -/
def addNoveltyTile (env : Env) (t : TileIn) (sys : Sys) : Bool × Sys :=
  if t.title = "" then (false, sys)
  else
    let tiles1 := materializeTile env t :: sys.db.noveltyTiles
    let tiles2 := if tiles1.length > 100 then tiles1.take 100 else tiles1
    let sys' : Sys := { sys with db := { sys.db with noveltyTiles := tiles2 } }
    (true, (saveToLocalStorage env sys').2)

/-! ## `addOrUpdateAcademic` and its merge helpers -/

/-- Paper dedup test from the merge loop: case-insensitive title equality
and year compatibility (`!p.year || !paper.year || p.year === paper.year`). -/
def paperSame (p q : Paper) : Bool :=
  lowerStr p.title = lowerStr q.title &&
    (!yearTruthy p.year || !yearTruthy q.year || p.year = q.year)

/-- `existing.connections.includes(connection)` elementwise equality test. -/
def strEq (q x : String) : Bool := q = x

/-- Event dedup test (same shape as `paperSame`). -/
def eventSame (e f : Event) : Bool :=
  lowerStr e.title = lowerStr f.title &&
    (!yearTruthy e.year || !yearTruthy f.year || e.year = f.year)

/-- `items.forEach(x => { if (!acc.some(q => same(q, x))) acc.push(x) })`. -/
def mergeDedup {α : Type} (same : α → α → Bool) (acc items : List α) : List α :=
  items.foldl (fun acc x => if acc.any (fun q => same q x) then acc else acc ++ [x]) acc

/-- Push each of `vals` into the `cat` binding when not already present. -/
def mergeTaxValues (cat : String) (vals : List String) (tx : List (String × List String)) :
    List (String × List String) :=
  vals.foldl (fun tx v =>
    let cur := (lookupA cat tx).getD []
    if v ∈ cur then tx else updateA cat (cur ++ [v]) tx) tx

/-- The taxonomy merge loop: create missing categories, then union values. -/
def mergeTaxonomies (existing candidate : List (String × List String)) :
    List (String × List String) :=
  candidate.foldl (fun tx p =>
    let tx := if (lookupA p.1 tx).isSome then tx else tx ++ [(p.1, [])]
    mergeTaxValues p.1 p.2 tx) existing

/-- Field-level merge of a candidate into an existing record. -/
def mergeAcademic (existing candidate : Academic) : Academic :=
  { existing with
    bio := if candidate.bio ≠ "" && candidate.bio ≠ existing.bio then candidate.bio
           else existing.bio
    taxonomies := mergeTaxonomies existing.taxonomies candidate.taxonomies
    papers := mergeDedup paperSame existing.papers candidate.papers
    events := mergeDedup eventSame existing.events candidate.events
    connections := mergeDedup strEq
                     existing.connections candidate.connections }

/-- `addOrUpdateAcademic`: merge under the normalized key, or insert the
candidate as-is and emit an `academic` novelty tile; persist either way. -/
def addOrUpdateAcademic (env : Env) (a : Academic) (sys : Sys) : Bool × Sys :=
  if a.name = "" then (false, sys)
  else
    let key := normalizeNameKey a.name
    match lookupA key sys.db.academics with
    | some existing =>
      let sys' : Sys :=
        { sys with db := { sys.db with
            academics := updateA key (mergeAcademic existing a) sys.db.academics } }
      (true, (saveToLocalStorage env sys').2)
    | none =>
      let sys' : Sys :=
        { sys with db := { sys.db with academics := sys.db.academics ++ [(key, a)] } }
      let sys'' := (addNoveltyTile env
        { title := "New Academic: " ++ a.name,
          content := a.name ++ " has been added to the database.",
          date := some env.now, type := "academic" } sys').2
      (true, (saveToLocalStorage env sys'').2)

/-! ## `getAcademic` -/

/-- Three-tier resolution, additionally reporting the key of the entry found:
exact normalized-key match, case-insensitive exact name match, then
substring match in either direction. -/
def getAcademicEntry (name : String) (acs : List (String × Academic)) :
    Option (String × Academic) :=
  if name = "" then none
  else
    let key := normalizeNameKey name
    match lookupA key acs with
    | some a => some (key, a)
    | none =>
      let lower := lowerStr name
      match acs.find? (fun p => lowerStr p.2.name = lower) with
      | some p => some p
      | none =>
        acs.find? (fun p =>
          strIncludes (lowerStr p.2.name) lower || strIncludes lower (lowerStr p.2.name))

/-- `getAcademic` as the JS code exposes it. -/
def getAcademic (name : String) (acs : List (String × Academic)) : Option Academic :=
  (getAcademicEntry name acs).map (·.2)

end KP

namespace KP

/-! ## `searchAcademics` -/

/-- Search criteria (absent properties are `none`). -/
structure Criteria where
  name : Option String
  discipline : Option String
  tradition : Option String
  era : Option String
  methodology : Option String
  theme : Option String
deriving DecidableEq, Inhabited

/-- JS truthiness of an optional string criterion (`''` is falsy). -/
def critVal : Option String → Option String
  | none => none
  | some s => if s = "" then none else some s

/-- One taxonomy criterion from the search loop. -/
def taxFieldMatch (a : Academic) (field : String) (crit : Option String) : Bool :=
  match critVal crit with
  | none => true
  | some v =>
    match lookupA field a.taxonomies with
    | none => false
    | some vals =>
      let cv := lowerStr v
      vals.any (fun x => strIncludes (lowerStr x) cv || strIncludes cv (lowerStr x))

/-- Conjunction of all supplied criteria (the `match` flag of the loop). -/
def acadMatches (c : Criteria) (a : Academic) : Bool :=
  (match critVal c.name with
   | none => true
   | some q => strIncludes (lowerStr a.name) (lowerStr q)) &&
  taxFieldMatch a "discipline" c.discipline &&
  taxFieldMatch a "tradition" c.tradition &&
  taxFieldMatch a "era" c.era &&
  taxFieldMatch a "methodology" c.methodology &&
  taxFieldMatch a "theme" c.theme

/-- The relevance comparator passed to `results.sort` when a name criterion
is present. -/
def searchCmp (q : String) (a b : Academic) : Int :=
  let nq := lowerStr q
  let aEx := lowerStr a.name = nq
  let bEx := lowerStr b.name = nq
  if aEx && !bEx then -1
  else if !aEx && bEx then 1
  else
    let ai := strIndexOf (lowerStr a.name) nq
    let bi := strIndexOf (lowerStr b.name) nq
    if ai ≠ -1 && bi ≠ -1 then ai - bi
    else localeCompare a.name b.name

/-- `comparator(a,b) <= 0`, the order the stable sort realizes. -/
def searchLe (q : String) (a b : Academic) : Bool := searchCmp q a b ≤ 0

/-- `searchAcademics`: filter by all supplied criteria, then, when a name
criterion is present, sort by relevance. -/
def searchAcademics (c : Criteria) (acs : List (String × Academic)) : List Academic :=
  let results := (acs.map (·.2)).filter (acadMatches c)
  match critVal c.name with
  | none => results
  | some q => isortLe (searchLe q) results

/-! ## `exportToJSON` / `importFromJSON` -/

/-- General JS truthiness of a parsed JSON value. -/
def jsTruthy : Json → Bool
  | .null => false
  | .bool b => b
  | .num n => n ≠ 0
  | .str s => s ≠ ""
  | .arr _ => true
  | .obj _ => true

/-- `exportToJSON`: serialize academics, taxonomy categories and a date. -/
def exportToJSON (env : Env) (sys : Sys) : StoredVal :=
  .good (.obj [("academics", encodeCatalog sys.db.academics),
               ("taxonomyCategories", encTaxonomies sys.db.taxonomyCategories),
               ("exportDate", .num env.now)])

/-- `importFromJSON`: parse, validate the academics member, replace the
catalog (and categories when provided), persist; on a failed save restore
the previous catalog and fail. -/
def importFromJSON (env : Env) (jsonData : StoredVal) (sys : Sys) : Bool × Sys :=
  match parseStored jsonData with
  | none => (false, sys)
  | some imported =>
    match getField imported "academics" with
    | none => (false, sys)
    | some acJson =>
      if !jsTruthyObject acJson then (false, sys)
      else
        match decodeCatalog acJson with
        | none => (false, sys)
        | some cat =>
          let backup := sys.db.academics
          let sys1 : Sys := { sys with db := { sys.db with academics := cat } }
          let sys2 : Sys :=
            match getField imported "taxonomyCategories" with
            | none => sys1
            | some txJson =>
              if jsTruthy txJson then
                match decTaxonomies txJson with
                | some tc => { sys1 with db := { sys1.db with taxonomyCategories := tc } }
                | none => sys1
              else sys1
          match saveToLocalStorage env sys2 with
          | (true, sys3) =>
            let sys4 := (addNoveltyTile env
              { title := "Database Import",
                content := "Database imported.",
                date := some env.now, type := "system" } sys3).2
            (true, sys4)
          | (false, sys3) =>
            (false, { sys3 with db := { sys3.db with academics := backup } })

/-! ## `enrichDatabase` (DeepSearch module)

The JS code pushes the candidate's name into the connected record *in
place* (the record object is aliased by the store) and then calls
`addOrUpdateAcademic` on it; the in-place push is modelled by `updateA`
at the key the record was found under. -/

/-- One iteration of the reciprocal-propagation loop of `enrichDatabase`:
resolve one connection name, push `aname` into the resolved record in place
(the record object is aliased by the store), re-merge it, emit a tile. -/
def enrichConnStep (env : Env) (aname : String) (sys : Sys) (conn : String) : Sys :=
  match getAcademicEntry conn sys.db.academics with
  | none => sys
  | some kr =>
    if aname ∈ kr.2.connections then sys
    else
      let r' : Academic :=
        { kr.2 with connections := kr.2.connections ++ [aname] }
      let sysP : Sys :=
        { sys with db := { sys.db with
            academics := updateA kr.1 r' sys.db.academics } }
      let sysQ := (addOrUpdateAcademic env r' sysP).2
      (addNoveltyTile env
        { title := "New Connection: " ++ r'.name ++ " → " ++ aname,
          content := "A connection between " ++ r'.name ++ " and " ++
            aname ++ " has been established.",
          date := some env.now, type := "connection" } sysQ).2

def enrichDatabase (env : Env) (a : Academic) (sys : Sys) : Bool × Sys :=
  if a.name = "" then (false, sys)
  else
    match addOrUpdateAcademic env a sys with
    | (false, sysF) => (false, sysF)
    | (true, sys1) =>
      let sys2 := (addNoveltyTile env
        { title := "Database Enriched: " ++ a.name,
          content := "New information about " ++ a.name ++
            " has been added to the database from DeepSearch.",
          date := some env.now, type := "academic" } sys1).2
      let sys3 :=
        if a.connections.length > 0 then
          a.connections.foldl (enrichConnStep env a.name) sys2
        else sys2
      (true, sys3)

end KP

namespace KP

/-! ## Regex scanning helpers for `extractAcademicData`

Each concrete JS regular expression of the extractor is simulated by a
scanner: try the pattern at every position from the left, first success
wins (the semantics of `String.prototype.match` for these patterns). -/

/-- Try `tryAt` at every suffix, leftmost success first. -/
def scanFor {α : Type} (tryAt : List Char → Option α) : List Char → Option α
  | [] => tryAt []
  | c :: cs =>
    match tryAt (c :: cs) with
    | some r => some r
    | none => scanFor tryAt cs

/-- `\s*([^\n]+)` with the engine's backtracking: skip whitespace greedily
(newlines included), then capture a non-empty run of non-newline
characters, giving whitespace back when necessary. -/
def wsCapLine (rest : List Char) : Option (List Char) :=
  let run := rest.takeWhile isWs
  let tail := rest.drop run.length
  let backtrack : Option (List Char) :=
    let nl := (run.reverse.takeWhile (fun c => c = '\n')).length
    if run.length ≤ nl then none
    else some ((rest.drop (run.length - nl - 1)).takeWhile (fun x => x ≠ '\n'))
  match tail with
  | [] => backtrack
  | c :: _ =>
    if c = '\n' then backtrack else some (tail.takeWhile (fun x => x ≠ '\n'))

/-- Index of the first position where `boundary` holds (the input length if
none; `boundary` is also supposed to hold at the very end). -/
def findBoundary (boundary : List Char → Bool) : List Char → Nat
  | [] => 0
  | c :: cs => if boundary (c :: cs) then 0 else 1 + findBoundary boundary cs

/-- `\n\s*\n` test at a position. -/
def blankLineAt (cs : List Char) : Bool :=
  match cs with
  | '\n' :: rest => ((rest.dropWhile (fun c => isWs c && c ≠ '\n')).head? = some '\n')
  | _ => false

/-- Section boundary `(?=(?:A|B|C):|\n\s*\n|$)` for the three labels. -/
def sectionBoundary (labels : List String) (cs : List Char) : Bool :=
  labels.any (fun l => startsWithCi cs (l.data ++ [':'])) || blankLineAt cs

/-- Try a section label pattern at a position: the label text (already
including its optional parts resolved by the caller), then `:`, then
`\s*`, then the lazy capture up to the section boundary. -/
def sectionCaptureAt (stopLabels : List String) (rest : List Char) : List Char :=
  let afterWs := rest.dropWhile isWs
  afterWs.take (findBoundary (sectionBoundary stopLabels) afterWs)

/-! ### Bullet and comma splitting -/

def isBullet (c : Char) : Bool := c = '-' || c = '*' || c = '•'

/-- Length of a `\n\s*[-*•]\s*` separator starting here, if any. -/
def bulletSepLen (cs : List Char) : Option Nat :=
  match cs with
  | '\n' :: rest =>
    let ws1 := rest.takeWhile isWs
    match rest.drop ws1.length with
    | b :: rest2 =>
      if isBullet b then
        some (1 + ws1.length + 1 + (rest2.takeWhile isWs).length)
      else none
    | [] => none
  | _ => none

/-- Length of a `,\s*` separator starting here, if any. -/
def commaSepLen (cs : List Char) : Option Nat :=
  match cs with
  | ',' :: rest => some (1 + (rest.takeWhile isWs).length)
  | _ => none

/-- `String.prototype.split` on a regex given by a separator matcher. -/
def splitRe (sep : List Char → Option Nat) (cs : List Char) : List (List Char) :=
  match cs with
  | [] => [[]]
  | c :: rest =>
    match sep (c :: rest) with
    | some n =>
      match n with
      | 0 => -- a zero-width separator cannot occur for the patterns used
        match splitRe sep rest with
        | [] => [[c]]
        | s :: ss => (c :: s) :: ss
      | m + 1 =>
        [] :: splitRe sep (rest.drop m)
    | none =>
      match splitRe sep rest with
      | [] => [[c]]
      | s :: ss => (c :: s) :: ss
termination_by cs.length
decreasing_by all_goals simp_wf <;> omega

end KP

namespace KP

/-! ## A small `JSON.parse` for the fenced-block branch

`extractAcademicData` runs `JSON.parse` on raw captured text, so here an
actual value-level parser is needed (integers only; exotic escapes and
floating literals are rejected, which only narrows the dead success path). -/

def lbrace : Char := Char.ofNat 123

def rbrace : Char := Char.ofNat 125

def escChar (c : Char) : Option Char :=
  if c = '"' then some '"'
  else if c = '\\' then some '\\'
  else if c = '/' then some '/'
  else if c = 'n' then some '\n'
  else if c = 't' then some '\t'
  else if c = 'r' then some '\r'
  else if c = 'b' then some (Char.ofNat 8)
  else if c = 'f' then some (Char.ofNat 12)
  else none

/-- Parse a string literal body (after the opening quote). -/
def parseStrBody : List Char → Option (List Char × List Char)
  | [] => none
  | c :: cs =>
    if c = '"' then some ([], cs)
    else if c = '\\' then
      match cs with
      | [] => none
      | e :: cs' =>
        match escChar e with
        | some ec => (parseStrBody cs').map (fun p => (ec :: p.1, p.2))
        | none => none
    else (parseStrBody cs).map (fun p => (c :: p.1, p.2))

/-- Parse a run of decimal digits into a natural number. -/
def digitsVal : List Char → Nat → Nat
  | [], acc => acc
  | c :: cs, acc => digitsVal cs (acc * 10 + (c.toNat - '0'.toNat))

mutual

def parseJsonF : Nat → List Char → Option (Json × List Char)
  | 0, _ => none
  | fuel + 1, cs0 =>
    let cs := cs0.dropWhile isWs
    match cs with
    | [] => none
    | c :: rest =>
      if c = '"' then (parseStrBody rest).map (fun p => (.str ⟨p.1⟩, p.2))
      else if c = lbrace then
        let rest1 := rest.dropWhile isWs
        match rest1 with
        | c2 :: rest2 =>
          if c2 = rbrace then some (.obj [], rest2)
          else (parseObjItems fuel rest1).map (fun p => (.obj p.1, p.2))
        | [] => none
      else if c = '[' then
        let rest1 := rest.dropWhile isWs
        match rest1 with
        | ']' :: rest2 => some (.arr [], rest2)
        | _ => (parseArrItems fuel rest1).map (fun p => (.arr p.1, p.2))
      else if c = 'n' then
        if startsWithChars rest ['u', 'l', 'l'] then some (.null, rest.drop 3) else none
      else if c = 't' then
        if startsWithChars rest ['r', 'u', 'e'] then some (.bool true, rest.drop 3) else none
      else if c = 'f' then
        if startsWithChars rest ['a', 'l', 's', 'e'] then some (.bool false, rest.drop 4)
        else none
      else if c = '-' || c.isDigit then
        let digits := if c = '-' then rest.takeWhile Char.isDigit
                      else c :: rest.takeWhile Char.isDigit
        let after := if c = '-' then rest.drop digits.length
                     else rest.drop (digits.length - 1)
        if c = '-' && digits.isEmpty then none
        else if after.head? = some '.' || after.head? = some 'e' || after.head? = some 'E' then
          none
        else
          let v : Int := digitsVal digits 0
          some (if c = '-' then .num (-v) else .num v, after)
      else none

def parseArrItems : Nat → List Char → Option (List Json × List Char)
  | 0, _ => none
  | fuel + 1, cs =>
    match parseJsonF fuel cs with
    | none => none
    | some (v, rest) =>
      let rest1 := rest.dropWhile isWs
      match rest1 with
      | ',' :: rest2 => (parseArrItems fuel rest2).map (fun p => (v :: p.1, p.2))
      | ']' :: rest2 => some ([v], rest2)
      | _ => none

def parseObjItems : Nat → List Char → Option (List (String × Json) × List Char)
  | 0, _ => none
  | fuel + 1, cs =>
    match cs.dropWhile isWs with
    | '"' :: rest =>
      match parseStrBody rest with
      | none => none
      | some (key, rest1) =>
        match rest1.dropWhile isWs with
        | ':' :: rest2 =>
          match parseJsonF fuel rest2 with
          | none => none
          | some (v, rest3) =>
            match rest3.dropWhile isWs with
            | ',' :: rest4 =>
              (parseObjItems fuel rest4).map (fun p => ((⟨key⟩, v) :: p.1, p.2))
            | c :: rest4 => if c = rbrace then some ([(⟨key⟩, v)], rest4) else none
            | [] => none
        | _ => none
    | _ => none

end

/-- `JSON.parse` on raw text, requiring full consumption. -/
def jsonParse (s : String) : Option Json :=
  match parseJsonF (2 * s.length + 2) s.data with
  | some (j, rest) => if (rest.dropWhile isWs).isEmpty then some j else none
  | none => none

end KP

namespace KP

/-! ## `extractAcademicData`: heading-based field extractors -/

/-- Split into lines (JS `split('\n')`). -/
def linesOf : List Char → List (List Char)
  | [] => [[]]
  | c :: cs =>
    if c = '\n' then [] :: linesOf cs
    else
      match linesOf cs with
      | [] => [[c]]
      | l :: ls => (c :: l) :: ls

/-- Like `wsCapLine` but returning how many characters `\s*` consumed. -/
def wsCapLinePos (rest : List Char) : Option Nat :=
  let run := rest.takeWhile isWs
  let tail := rest.drop run.length
  let nl := (run.reverse.takeWhile (fun c => c = '\n')).length
  let backtrack : Option Nat :=
    if run.length ≤ nl then none else some (run.length - nl - 1)
  match tail with
  | [] => backtrack
  | c :: _ => if c = '\n' then backtrack else some run.length

/-- Scan only at line-start positions (patterns with `^` under the `m` flag). -/
def scanAfterNl {α : Type} (tryAt : List Char → Option α) : List Char → Option α
  | [] => none
  | c :: cs =>
    if c = '\n' then
      match tryAt cs with
      | some r => some r
      | none => scanAfterNl tryAt cs
    else scanAfterNl tryAt cs

def scanLineStarts {α : Type} (tryAt : List Char → Option α) (cs : List Char) : Option α :=
  match tryAt cs with
  | some r => some r
  | none => scanAfterNl tryAt cs

/-- A plain `Label:` matcher (case-insensitive). -/
def simpleLabel (w : String) (cs : List Char) : Option (List Char) :=
  if startsWithCi cs (w.data ++ [':']) then some (cs.drop (w.data.length + 1)) else none

/-- The `Papers(?:\s*\/\s*Publications)?:` label. -/
def papersLabel1 (cs : List Char) : Option (List Char) :=
  if startsWithCi cs "papers".data then
    let rest := cs.drop 6
    let w1 := rest.takeWhile isWs
    let a1 := rest.drop w1.length
    let plain : Option (List Char) :=
      if rest.head? = some ':' then some (rest.drop 1) else none
    match a1 with
    | '/' :: a2 =>
      let w2 := a2.takeWhile isWs
      let a3 := a2.drop w2.length
      if startsWithCi a3 "publications:".data then some (a3.drop 13) else plain
    | _ => plain
  else none

/-- Try the label matchers in order; first one whose trimmed section capture
is non-empty wins (the `if (m && m[1].trim())` cascade). -/
def sectionText (matchers : List (List Char → Option (List Char)))
    (stop : List String) (cs : List Char) : Option (List Char) :=
  match matchers with
  | [] => none
  | m :: ms =>
    match scanFor (fun p => (m p).map (sectionCaptureAt stop)) cs with
    | some cap => if trimChars cap ≠ [] then some (trimChars cap) else sectionText ms stop cs
    | none => sectionText ms stop cs

/-! ### Bio -/

/-- `(?:\n(?!Papers|Events|Connections|Taxonomies).+)*`: greedy multi-line
continuation of the bio capture. -/
def bioCont : List Char → List Char
  | [] => []
  | c :: rest =>
    if c = '\n' then
      if startsWithCi rest "papers".data || startsWithCi rest "events".data ||
         startsWithCi rest "connections".data || startsWithCi rest "taxonomies".data then []
      else
        let line := rest.takeWhile (fun x => x ≠ '\n')
        if line.isEmpty then []
        else '\n' :: (line ++ bioCont (rest.drop line.length))
    else []
termination_by cs => cs.length
decreasing_by
  simp_wf
  omega

def bioLabel1 (cs : List Char) : Option (List Char) :=
  if startsWithCi cs "biography:".data then some (cs.drop 10)
  else if startsWithCi cs "bio:".data then some (cs.drop 4)
  else none

def bioLabel2 (cs : List Char) : Option (List Char) :=
  if startsWithChars cs "**".data then
    let r := cs.drop 2
    if startsWithCi r "biography:**".data then some (r.drop 12)
    else if startsWithCi r "bio:**".data then some (r.drop 6)
    else none
  else none

def bioLabel3 (cs : List Char) : Option (List Char) :=
  if startsWithCi cs "about:".data then some (cs.drop 6)
  else if startsWithCi cs "background:".data then some (cs.drop 11)
  else none

/-- `\s*([^\n]+(?:...)*)` after a bio label. -/
def bioCapAt (rest : List Char) : Option (List Char) :=
  (wsCapLinePos rest).map (fun k =>
    let start := rest.drop k
    let first := start.takeWhile (fun x => x ≠ '\n')
    first ++ bioCont (start.drop first.length))

/-- `replace(/\n\s*/g, ' ')`. -/
def nlWsToSpace : List Char → List Char
  | [] => []
  | c :: cs =>
    if c = '\n' then ' ' :: nlWsToSpace (cs.dropWhile isWs)
    else c :: nlWsToSpace cs
termination_by cs => cs.length
decreasing_by
  all_goals simp_wf
  have := (List.dropWhile_sublist (l := cs) isWs).length_le
  omega

/-- The bio field: three pattern variants, first non-empty trim wins. -/
def extractBio (cs : List Char) : String :=
  let try1 := scanFor (fun p => (bioLabel1 p).bind bioCapAt) cs
  let v1 := (try1.map trimChars).getD []
  if v1 ≠ [] then ⟨nlWsToSpace v1⟩
  else
    let try2 := scanFor (fun p => (bioLabel2 p).bind bioCapAt) cs
    let v2 := (try2.map trimChars).getD []
    if v2 ≠ [] then ⟨nlWsToSpace v2⟩
    else
      let try3 := scanLineStarts (fun p => (bioLabel3 p).bind bioCapAt) cs
      let v3 := (try3.map trimChars).getD []
      if v3 ≠ [] then ⟨nlWsToSpace v3⟩ else ""

/-! ### Year, coauthor and ordinal helpers for list items -/

/-- First `\((\d{4})\)` match. -/
def parseYearParen : List Char → Option Nat :=
  scanFor (fun p =>
    match p with
    | '(' :: rest =>
      if (rest.take 4).length = 4 && (rest.take 4).all Char.isDigit &&
         (rest.drop 4).head? = some ')' then
        some (digitsVal (rest.take 4) 0)
      else none
    | _ => none)

/-- First `,\s*(\d{4})` match. -/
def parseYearComma : List Char → Option Nat :=
  scanFor (fun p =>
    match p with
    | ',' :: rest =>
      let after := rest.dropWhile isWs
      if (after.take 4).length = 4 && (after.take 4).all Char.isDigit then
        some (digitsVal (after.take 4) 0)
      else none
    | _ => none)

/-- `replace(/\(\d{4}\)/, '')` (first occurrence only). -/
def removeParenYear : List Char → List Char
  | [] => []
  | c :: cs =>
    if c = '(' && (cs.take 4).length = 4 && (cs.take 4).all Char.isDigit &&
       (cs.drop 4).head? = some ')' then
      cs.drop 5
    else c :: removeParenYear cs

/-- `replace(/,\s*\d{4}/, '')` (first occurrence only). -/
def removeCommaYear : List Char → List Char
  | [] => []
  | c :: cs =>
    if c = ',' &&
       (((cs.dropWhile isWs).take 4).length = 4 &&
        ((cs.dropWhile isWs).take 4).all Char.isDigit) then
      (cs.dropWhile isWs).drop 4
    else c :: removeCommaYear cs

/-- `with\s+([^\.]+)` tried at one position: `(match length, capture)`. -/
def withMatchAt (cs : List Char) : Option (Nat × List Char) :=
  if startsWithCi cs "with".data then
    let rest := cs.drop 4
    let run := rest.takeWhile isWs
    if run.length = 0 then none
    else
      let tail := rest.drop run.length
      let backtrack : Option (Nat × List Char) :=
        if run.length ≥ 2 then
          let cap := (rest.drop (run.length - 1)).takeWhile (fun x => x ≠ '.')
          some (4 + (run.length - 1) + cap.length, cap)
        else none
      match tail with
      | [] => backtrack
      | c :: _ =>
        if c = '.' then backtrack
        else
          let cap := tail.takeWhile (fun x => x ≠ '.')
          some (4 + run.length + cap.length, cap)
  else none

/-- First `with\s+([^\.]+)` match: the input with the match removed, and the
capture (`null` when there is no match). -/
def withRemove : List Char → Option (List Char × List Char)
  | [] => none
  | c :: cs =>
    match withMatchAt (c :: cs) with
    | some p => some ((c :: cs).drop p.1, p.2)
    | none => (withRemove cs).map (fun p => (c :: p.1, p.2))

/-- Separator `(?:,|\sand\s)` for the coauthor split. -/
def andSepLen (cs : List Char) : Option Nat :=
  match cs with
  | ',' :: _ => some 1
  | c :: rest =>
    if isWs c && startsWithChars rest "and".data then
      match rest.drop 3 with
      | w :: _ => if isWs w then some 5 else none
      | [] => none
    else none
  | [] => none

def splitCoauthors (cs : List Char) : List String :=
  ((splitRe andSepLen cs).map (fun c => trimStr ⟨c⟩)).filter (fun s => s ≠ "")

/-- `replace(/^\d+\.\s*/, '')`. -/
def stripOrdinal (cs : List Char) : List Char :=
  let ds := cs.takeWhile Char.isDigit
  if ds ≠ [] && (cs.drop ds.length).head? = some '.' then
    (cs.drop (ds.length + 1)).dropWhile isWs
  else cs

/-! ### Papers, connections, taxonomies, events -/

/-- One bullet item of the papers section. -/
def processPaperItem (item : List Char) : Option Paper :=
  let t := trimChars item
  if t = [] then none
  else if startsWithChars t "Publications:".data then none
  else
    let year : Option Nat :=
      match parseYearParen item with
      | some y => some y
      | none => parseYearComma item
    let title0 := trimChars (removeCommaYear (removeParenYear item))
    match withRemove title0 with
    | some p =>
      some { title := trimStr ⟨p.1⟩, year := some (((year.getD 0) : Nat) : Int),
             coauthors := splitCoauthors p.2 }
    | none =>
      some { title := ⟨title0⟩, year := some (((year.getD 0) : Nat) : Int),
             coauthors := [] }

def extractPapers (cs : List Char) : List Paper :=
  match sectionText
      [papersLabel1, simpleLabel "publications", simpleLabel "major works"]
      ["events", "connections", "taxonomies"] cs with
  | none => []
  | some txt => (splitRe bulletSepLen txt).filterMap processPaperItem

def extractConnections (cs : List Char) : List String :=
  match sectionText
      [simpleLabel "connections", simpleLabel "influences", simpleLabel "related academics"]
      ["events", "papers", "taxonomies"] cs with
  | none => []
  | some txt =>
    let items :=
      if txt.any (fun c => c = '-') || txt.any (fun c => c = '*') ||
         txt.any (fun c => c = '•') then
        splitRe bulletSepLen txt
      else splitRe commaSepLen txt
    items.filterMap (fun item =>
      let conn := trimChars item
      if conn ≠ [] && !startsWithChars conn "Connections:".data then
        some (⟨stripOrdinal conn⟩ : String)
      else none)

/-- `[:\s]+(.+)` after a category word (with the one-character give-back). -/
def colonWsCapture (r : List Char) : Option (List Char) :=
  let run := r.takeWhile (fun c => c = ':' || isWs c)
  if run.length = 0 then none
  else
    let tail := r.drop run.length
    if tail ≠ [] then some tail
    else if run.length ≥ 2 then some (r.drop (run.length - 1))
    else none

/-- `[-*•]?\s*(discipline|...)[s]?[:\s]+(.+)` tried at one position. -/
def taxWordAt (cs : List Char) : Option (String × List Char) :=
  let cs1 := match cs with
    | c :: rest => if isBullet c then rest else cs
    | [] => cs
  let cs2 := cs1.dropWhile isWs
  let tryWord : String → Option (String × List Char) := fun w =>
    if startsWithCi cs2 w.data then
      let r := cs2.drop w.data.length
      let withS : Option (List Char) :=
        match r with
        | c :: r' => if c = 's' || c = 'S' then colonWsCapture r' else none
        | [] => none
      match withS with
      | some cap => some (w, cap)
      | none => (colonWsCapture r).map (fun cap => (w, cap))
    else none
  match tryWord "discipline" with
  | some res => some res
  | none =>
    match tryWord "tradition" with
    | some res => some res
    | none =>
      match tryWord "era" with
      | some res => some res
      | none =>
        match tryWord "methodology" with
        | some res => some res
        | none => tryWord "theme"

def applyTaxLine (tx : List (String × List String)) (line : List Char) :
    List (String × List String) :=
  match scanFor taxWordAt line with
  | none => tx
  | some p =>
    let vals := (splitRe commaSepLen p.2).map (fun c => trimStr ⟨c⟩)
    match lookupA p.1 tx with
    | none => tx ++ [(p.1, vals)]
    | some cur => updateA p.1 (cur ++ vals) tx

def extractTaxonomies (cs : List Char) : List (String × List String) :=
  match sectionText
      [simpleLabel "taxonomies", simpleLabel "categories", simpleLabel "classifications"]
      ["events", "papers", "connections"] cs with
  | none => []
  | some txt => (linesOf txt).foldl applyTaxLine []

/-- Leftmost `,\s*([^,\d]+)$` match (the trailing location segment). -/
def locScan : List Char → Option (List Char)
  | [] => none
  | c :: cs =>
    if c = ',' && cs ≠ [] && cs.all (fun x => x ≠ ',' && !x.isDigit) then
      let run := cs.takeWhile isWs
      some (cs.drop (min run.length (cs.length - 1)))
    else locScan cs

/-- Does `,\s*LOC` sit at this position and reach the end? -/
def locSuffixAt (loc cs : List Char) : Bool :=
  match cs with
  | ',' :: rest =>
    rest.length ≥ loc.length && rest.drop (rest.length - loc.length) = loc &&
      (rest.take (rest.length - loc.length)).all isWs
  | _ => false

/-- `replace(new RegExp(",\\s*LOC$"), '')`. -/
def stripTrailingLoc (loc : List Char) : List Char → List Char
  | [] => []
  | c :: cs =>
    if locSuffixAt loc (c :: cs) then [] else c :: stripTrailingLoc loc cs

/-- One bullet item of the events section. -/
def processEventItem (item : List Char) : Option Event :=
  let t := trimChars item
  if t = [] then none
  else if startsWithChars t "Events:".data then none
  else
    let year : Option Nat :=
      match parseYearParen item with
      | some y => some y
      | none => parseYearComma item
    let location := ((locScan item).map trimChars).getD []
    let title0 := trimChars (removeCommaYear (removeParenYear item))
    let title1 := if location ≠ [] then trimChars (stripTrailingLoc location title0)
                  else title0
    some { title := ⟨title1⟩, year := some (((year.getD 0) : Nat) : Int),
           location := ⟨location⟩ }

def extractEvents (cs : List Char) : List Event :=
  match sectionText
      [simpleLabel "events", simpleLabel "key dates", simpleLabel "timeline"]
      ["papers", "connections", "taxonomies"] cs with
  | none => []
  | some txt => (splitRe bulletSepLen txt).filterMap processEventItem

/-! ### Name patterns and the fenced-JSON branch -/

def namePat1 (cs : List Char) : Option (List Char) :=
  scanFor (fun p =>
    if startsWithCi p "name:".data then wsCapLine (p.drop 5) else none) cs

def namePat2 (cs : List Char) : Option (List Char) :=
  scanFor (fun p =>
    if startsWithCi p "**name:**".data then wsCapLine (p.drop 9) else none) cs

def namePat3 (cs : List Char) : Option (List Char) :=
  (linesOf cs).find? (fun l => !l.isEmpty && !l.any (fun c => c = ':'))

/-- The name resolved by the heading branch (each pattern's capture must
survive `.trim()` to be accepted). -/
def headingName (cs : List Char) : Option String :=
  let v1 := ((namePat1 cs).map trimChars).getD []
  if v1 ≠ [] then some ⟨v1⟩
  else
    let v2 := ((namePat2 cs).map trimChars).getD []
    if v2 ≠ [] then some ⟨v2⟩
    else
      let v3 := ((namePat3 cs).map trimChars).getD []
      if v3 ≠ [] then some ⟨v3⟩ else none

/-- The ``` fenced block capture tried at one position. -/
def fenceAt (cs : List Char) : Option (List Char) :=
  if startsWithChars cs "```".data then
    let r := cs.drop 3
    let r2 := if startsWithChars r "json".data then r.drop 4 else r
    let r3 := r2.dropWhile isWs
    match firstIdxChars r3 "```".data with
    | some i => some (r3.take i)
    | none => none
  else none

/-- Typed embedding of `return jsonData` for a parsed object with a truthy
`name`: fields the object lacks (or that have unexpected shapes) default. -/
def looseAcademic (j : Json) (nf : Json) : Academic :=
  { name := (decStr nf).getD ""
    bio := ((getField j "bio").bind decStr).getD ""
    taxonomies := ((getField j "taxonomies").bind decTaxonomies).getD []
    papers := ((getField j "papers").bind (fun x =>
      match x with | .arr xs => decList decPaper xs | _ => none)).getD []
    events := ((getField j "events").bind (fun x =>
      match x with | .arr xs => decList decEvent xs | _ => none)).getD []
    connections := ((getField j "connections").bind decStrList).getD [] }

/-- The fenced-JSON branch: parse the first fenced block; succeed only when
it parses and carries a truthy `name`. -/
def jsonFenceAcademic (cs : List Char) : Option Academic :=
  match scanFor fenceAt cs with
  | none => none
  | some cap =>
    match jsonParse ⟨trimChars cap⟩ with
    | none => none
    | some j =>
      match getField j "name" with
      | some nf => if jsTruthy nf then some (looseAcademic j nf) else none
      | none => none

/-- The initial guard `!text || !text.includes('name') || !text.includes('bio')`
(note: case-sensitive lowercase substrings). -/
def extractGuardFails (text : String) : Bool :=
  text = "" || !strIncludes text "name" || !strIncludes text "bio"

/-- `extractAcademicData`: guard, then fenced-JSON branch, then the
heading-based branch; `none` models the JS `null`. -/
def extractAcademicData (text : String) : Option Academic :=
  if extractGuardFails text then none
  else
    match jsonFenceAcademic text.data with
    | some a => some a
    | none =>
      match headingName text.data with
      | none => none
      | some nm =>
        some { name := nm, bio := extractBio text.data,
               taxonomies := extractTaxonomies text.data,
               papers := extractPapers text.data,
               events := extractEvents text.data,
               connections := extractConnections text.data }

end KP

namespace KP

/-! ## Behaviour of the persistence layer under a healthy substrate -/

theorem save_ok_db (env : Env) (h : env.mode = .ok) (sys : Sys) :
    ((saveToLocalStorage env sys).2).db = sys.db := by
  rcases env with ⟨mode, sup, now⟩
  cases h
  cases sup <;>
    simp [saveToLocalStorage, setItem, writeSlot, createBackup, parseStored,
      jsTruthyObject, encodeCatalog]

theorem save_ok_true (env : Env) (h : env.mode = .ok) (hs : env.supported = true)
    (sys : Sys) : (saveToLocalStorage env sys).1 = true := by
  rcases env with ⟨mode, sup, now⟩
  cases h; cases hs
  simp [saveToLocalStorage, setItem, writeSlot, createBackup, parseStored,
    jsTruthyObject, encodeCatalog]

theorem addNoveltyTile_ok_db (env : Env) (h : env.mode = .ok) (t : TileIn) (sys : Sys)
    (ht : t.title ≠ "") :
    ((addNoveltyTile env t sys).2).db.noveltyTiles
      = (materializeTile env t :: sys.db.noveltyTiles).take 100 ∧
    ((addNoveltyTile env t sys).2).db.academics = sys.db.academics := by
  simp only [addNoveltyTile, if_neg ht]
  refine ⟨?_, ?_⟩ <;> rw [save_ok_db env h]
  split
  · rfl
  · next hlen =>
    simp only [List.length_cons, Nat.not_lt] at hlen
    exact (List.take_of_length_le (by simpa using hlen)).symm

theorem addNoveltyTile_ok_academics (env : Env) (h : env.mode = .ok) (t : TileIn)
    (sys : Sys) :
    ((addNoveltyTile env t sys).2).db.academics = sys.db.academics := by
  by_cases ht : t.title = ""
  · simp [addNoveltyTile, ht]
  · exact (addNoveltyTile_ok_db env h t sys ht).2

theorem addOrUpdate_ok_academics (env : Env) (h : env.mode = .ok) (a : Academic)
    (sys : Sys) (hname : a.name ≠ "") :
    ((addOrUpdateAcademic env a sys).2).db.academics =
      (match lookupA (normalizeNameKey a.name) sys.db.academics with
       | some e => updateA (normalizeNameKey a.name) (mergeAcademic e a) sys.db.academics
       | none => sys.db.academics ++ [(normalizeNameKey a.name, a)]) := by
  simp only [addOrUpdateAcademic, if_neg hname]
  split
  · simp only [save_ok_db env h]
  · simp only [save_ok_db env h, addNoveltyTile_ok_academics env h]

theorem addOrUpdate_ok_fst (env : Env) (a : Academic) (sys : Sys) (hname : a.name ≠ "") :
    (addOrUpdateAcademic env a sys).1 = true := by
  simp only [addOrUpdateAcademic, if_neg hname]
  split <;> rfl

end KP

namespace KP

theorem searchAcademics_noCriteria (acs : List (String × Academic)) :
    searchAcademics ⟨none, none, none, none, none, none⟩ acs = acs.map Prod.snd := by
  simp [searchAcademics, critVal, acadMatches, taxFieldMatch]

theorem saveToLocalStorage_verifyFail (now : Int) (sys : Sys) :
    (saveToLocalStorage ⟨.corruptAcademics, true, now⟩ sys).1 = false ∧
    (saveToLocalStorage ⟨.corruptAcademics, true, now⟩ sys).2.db.academics =
      (((sys.storage.academicsSlot.or sys.storage.backupSlot).bind parseStored).bind
        (fun j => if jsTruthyObject j then decodeCatalog j else none)).getD
        sys.db.academics := by
  rcases sys with ⟨db, aSlot, bSlot, tSlot, fSlot, sSlot⟩
  cases aSlot with
  | none =>
    cases bSlot with
    | none =>
      simp [saveToLocalStorage, setItem, writeSlot, createBackup, restoreAndFail,
        restoreFromBackup, parseStored]
    | some sv =>
      cases sv with
      | bad =>
        simp [saveToLocalStorage, setItem, writeSlot, createBackup, restoreAndFail,
          restoreFromBackup, parseStored]
      | good j =>
        by_cases hj : jsTruthyObject j = true
        · simp [saveToLocalStorage, setItem, writeSlot, createBackup, restoreAndFail,
            restoreFromBackup, parseStored, hj]
          cases hc : decodeCatalog j <;> simp [hc]
        · simp [saveToLocalStorage, setItem, writeSlot, createBackup, restoreAndFail,
            restoreFromBackup, parseStored, hj]
  | some sv0 =>
    cases sv0 with
    | bad =>
      simp [saveToLocalStorage, setItem, writeSlot, createBackup, restoreAndFail,
        restoreFromBackup, parseStored]
    | good j0 =>
      by_cases hj : jsTruthyObject j0 = true
      · simp [saveToLocalStorage, setItem, writeSlot, createBackup, restoreAndFail,
          restoreFromBackup, parseStored, hj]
        cases hc : decodeCatalog j0 <;> simp [hc]
      · simp [saveToLocalStorage, setItem, writeSlot, createBackup, restoreAndFail,
          restoreFromBackup, parseStored, hj]


def c1recNew : Academic := ⟨"B", "new bio", [], [], [], []⟩

def c1recOld : Academic := ⟨"B", "old bio", [], [], [], []⟩

def c1sys : Sys :=
  ⟨⟨[("b", c1recNew)], [], [], [], []⟩,
   ⟨some (.good (encodeCatalog [("b", c1recOld)])), none, none, none, none⟩⟩

theorem c1_counterexample :
    (saveToLocalStorage ⟨.corruptAcademics, true, 0⟩ c1sys).1 = false ∧
    (saveToLocalStorage ⟨.corruptAcademics, true, 0⟩ c1sys).2.db.academics
      ≠ c1sys.db.academics := by decide

def c9tiles : List Tile := (List.range 21).map (fun i => ⟨"t", "", 1000 + i, "x"⟩)

def c9sys : Sys := ⟨⟨[], c9tiles, [], [], []⟩, ⟨none, none, none, none, none⟩⟩

def c9tile : TileIn := ⟨"old news", "", some 5, "x"⟩

theorem c9_counterexample :
    (addNoveltyTile ⟨.quotaAcademics, true, 999⟩ c9tile c9sys).1 = true ∧
    (addNoveltyTile ⟨.quotaAcademics, true, 999⟩ c9tile c9sys).2.db.noveltyTiles.head?
      ≠ some (materializeTile ⟨.quotaAcademics, true, 999⟩ c9tile) := by decide

theorem addNoveltyTile_ok_spec (sup : Bool) (now : Int) (t : TileIn) (sys : Sys)
    (ht : t.title ≠ "") :
    (addNoveltyTile ⟨.ok, sup, now⟩ t sys).1 = true ∧
    ((addNoveltyTile ⟨.ok, sup, now⟩ t sys).2).db.noveltyTiles
      = (materializeTile ⟨.ok, sup, now⟩ t :: sys.db.noveltyTiles).take 100 ∧
    ((addNoveltyTile ⟨.ok, sup, now⟩ t sys).2).db.noveltyTiles.length ≤ 100 ∧
    ((addNoveltyTile ⟨.ok, sup, now⟩ t sys).2).db.noveltyTiles.head?
      = some (materializeTile ⟨.ok, sup, now⟩ t) := by
  have h := addNoveltyTile_ok_db ⟨.ok, sup, now⟩ rfl t sys ht
  refine ⟨?_, h.1, ?_, ?_⟩
  · simp [addNoveltyTile, if_neg ht]
  · rw [h.1]; exact List.length_take_le _ _
  · rw [h.1]
    rw [show (100 : Nat) = 99 + 1 from rfl, List.take_succ_cons]
    rfl

theorem addNoveltyTile_ok_spec_witness :
    ("tile" : String) ≠ "" ∧
    ((addNoveltyTile ⟨.ok, true, 7⟩ ⟨"tile", "c", none, "x"⟩ c9sys).1 = true ∧
     ((addNoveltyTile ⟨.ok, true, 7⟩ ⟨"tile", "c", none, "x"⟩ c9sys).2).db.noveltyTiles
       = (materializeTile ⟨.ok, true, 7⟩ ⟨"tile", "c", none, "x"⟩ :: c9sys.db.noveltyTiles).take 100 ∧
     ((addNoveltyTile ⟨.ok, true, 7⟩ ⟨"tile", "c", none, "x"⟩ c9sys).2).db.noveltyTiles.length ≤ 100 ∧
     ((addNoveltyTile ⟨.ok, true, 7⟩ ⟨"tile", "c", none, "x"⟩ c9sys).2).db.noveltyTiles.head?
       = some (materializeTile ⟨.ok, true, 7⟩ ⟨"tile", "c", none, "x"⟩)) :=
  ⟨by decide, addNoveltyTile_ok_spec true 7 ⟨"tile", "c", none, "x"⟩ c9sys (by decide)⟩

end KP
namespace KP

/-! ## Association-list lemmas -/

theorem lookupA_updateA_ne {β : Type} (k k' : String) (h : k' ≠ k) (v : β)
    (l : List (String × β)) : lookupA k (updateA k' v l) = lookupA k l := by
  induction l with
  | nil => rfl
  | cons p rest ih =>
    rcases p with ⟨pk, pv⟩
    by_cases hp : pk = k'
    · subst hp
      simp [updateA, lookupA, h, ih]
    · simp [updateA, lookupA, hp, ih]

theorem lookupA_updateA_self {β : Type} (k : String) (v : β) (l : List (String × β)) :
    lookupA k (updateA k v l) = if (lookupA k l).isSome then some v else none := by
  induction l with
  | nil => rfl
  | cons p rest ih =>
    rcases p with ⟨pk, pv⟩
    by_cases hp : pk = k
    · subst hp; simp [updateA, lookupA]
    · simp [updateA, lookupA, hp, ih]

theorem updateA_of_lookupA_eq {β : Type} (k : String) (v : β) (l : List (String × β))
    (h : lookupA k l = some v) : updateA k v l = l := by
  induction l with
  | nil => rfl
  | cons p rest ih =>
    rcases p with ⟨pk, pv⟩
    by_cases hp : pk = k
    · subst hp
      simp [lookupA] at h
      simp [updateA, h]
    · simp [lookupA, hp] at h
      simp [updateA, hp, ih h]

theorem keys_updateA {β : Type} (k : String) (v : β) (l : List (String × β)) :
    (updateA k v l).map Prod.fst = l.map Prod.fst := by
  induction l with
  | nil => rfl
  | cons p rest ih =>
    rcases p with ⟨pk, pv⟩
    by_cases hp : pk = k <;> simp [updateA, hp, ih]

theorem lookupA_append_right {β : Type} (k : String) (a : β) (l : List (String × β))
    (h : lookupA k l = none) : lookupA k (l ++ [(k, a)]) = some a := by
  induction l with
  | nil => simp [lookupA]
  | cons p rest ih =>
    rcases p with ⟨pk, pv⟩
    by_cases hp : pk = k
    · subst hp; simp [lookupA] at h
    · simp [lookupA, hp] at h ⊢
      exact ih h

theorem lookupA_of_nodup_mem {β : Type} (l : List (String × β)) (k : String) (v : β)
    (hn : (l.map Prod.fst).Nodup) (hm : (k, v) ∈ l) : lookupA k l = some v := by
  induction l with
  | nil => simp at hm
  | cons p rest ih =>
    rcases p with ⟨pk, pv⟩
    simp at hn
    rcases List.mem_cons.mp hm with h | h
    · cases h; simp [lookupA]
    · have hk : pk ≠ k := fun he => hn.1 v (he ▸ h)
      simp [lookupA, hk]
      exact ih hn.2 h

end KP
namespace KP

/-! ## Merge lemmas (idempotence building blocks) -/

theorem mem_mergeDedup_left {α : Type} (same : α → α → Bool) (acc items : List α)
    (x : α) (hx : x ∈ acc) : x ∈ mergeDedup same acc items := by
  induction items generalizing acc with
  | nil => exact hx
  | cons i is ih =>
    simp only [mergeDedup, List.foldl_cons] at *
    split
    · exact ih acc hx
    · exact ih (acc ++ [i]) (List.mem_append_left _ hx)

theorem mergeDedup_exists {α : Type} (same : α → α → Bool)
    (hrefl : ∀ x, same x x = true) (acc items : List α) :
    ∀ x ∈ items, ∃ q ∈ mergeDedup same acc items, same q x = true := by
  induction items generalizing acc with
  | nil => intro x hx; simp at hx
  | cons i is ih =>
    intro x hx
    simp only [mergeDedup, List.foldl_cons]
    rcases List.mem_cons.mp hx with rfl | hx'
    · split
      · next hdup =>
        rcases List.any_eq_true.mp hdup with ⟨q, hq, hsq⟩
        exact ⟨q, mem_mergeDedup_left same acc is q hq, hsq⟩
      · exact ⟨x, mem_mergeDedup_left same _ is x (List.mem_append_right _ (by simp)),
          hrefl x⟩
    · split
      · exact ih acc x hx'
      · exact ih (acc ++ [i]) x hx'

theorem mergeDedup_noop {α : Type} (same : α → α → Bool) (acc items : List α)
    (h : ∀ x ∈ items, ∃ q ∈ acc, same q x = true) :
    mergeDedup same acc items = acc := by
  induction items with
  | nil => rfl
  | cons i is ih =>
    simp only [mergeDedup, List.foldl_cons]
    have hi : acc.any (fun q => same q i) = true := by
      rcases h i (by simp) with ⟨q, hq, hs⟩
      exact List.any_eq_true.mpr ⟨q, hq, hs⟩
    rw [if_pos hi]
    exact ih (fun x hx => h x (List.mem_cons_of_mem _ hx))

theorem mergeDedup_idem {α : Type} (same : α → α → Bool)
    (hrefl : ∀ x, same x x = true) (acc items : List α) :
    mergeDedup same (mergeDedup same acc items) items = mergeDedup same acc items :=
  mergeDedup_noop same _ items (mergeDedup_exists same hrefl acc items)

theorem paperSame_refl (p : Paper) : paperSame p p = true := by
  simp [paperSame]

theorem eventSame_refl (e : Event) : eventSame e e = true := by
  simp [eventSame]

end KP
namespace KP

/-! ## Taxonomy merge lemmas -/

theorem mem_getD_isSome {α : Type} (o : Option (List α)) (v : α)
    (h : v ∈ o.getD []) : o.isSome := by
  cases o with
  | none => simp at h
  | some l => rfl

theorem lookupA_append {β : Type} (k : String) (l₁ l₂ : List (String × β)) :
    lookupA k (l₁ ++ l₂) =
      (match lookupA k l₁ with
       | some v => some v
       | none => lookupA k l₂) := by
  induction l₁ with
  | nil => simp [lookupA]
  | cons p rest ih =>
    rcases p with ⟨pk, pv⟩
    by_cases hp : pk = k <;> simp [lookupA, hp, ih]

theorem taxStep_lookup (cat cat₀ : String) (v : String)
    (tx : List (String × List String)) :
    (lookupA cat₀ (if v ∈ (lookupA cat tx).getD [] then tx
        else updateA cat ((lookupA cat tx).getD [] ++ [v]) tx))
      = (if cat₀ = cat ∧ v ∉ (lookupA cat tx).getD [] ∧ (lookupA cat tx).isSome
         then some ((lookupA cat tx).getD [] ++ [v]) else lookupA cat₀ tx) := by
  by_cases hv : v ∈ (lookupA cat tx).getD []
  · simp [hv]
  · rw [if_neg hv]
    by_cases hc : cat₀ = cat
    · subst hc
      rw [lookupA_updateA_self]
      by_cases hs : (lookupA cat₀ tx).isSome
      · simp [hs, hv]
      · simp [hs, hv]
        exact (by simpa using hs : lookupA cat₀ tx = none).symm
    · rw [lookupA_updateA_ne _ _ (fun he => hc he.symm)]
      simp [hc]

theorem mergeTaxValues_cons (cat v : String) (vs : List String)
    (tx : List (String × List String)) :
    mergeTaxValues cat (v :: vs) tx =
      mergeTaxValues cat vs
        (if v ∈ (lookupA cat tx).getD [] then tx
         else updateA cat ((lookupA cat tx).getD [] ++ [v]) tx) := rfl

theorem mergeTaxValues_lookup_mono (cat : String) (vs : List String)
    (cat₀ v₀ : String) (tx : List (String × List String))
    (h : v₀ ∈ (lookupA cat₀ tx).getD []) :
    v₀ ∈ (lookupA cat₀ (mergeTaxValues cat vs tx)).getD [] := by
  induction vs generalizing tx with
  | nil => exact h
  | cons v rest ih =>
    rw [mergeTaxValues_cons]
    apply ih
    rw [taxStep_lookup]
    split
    · next hcond =>
      rcases hcond with ⟨rfl, _, _⟩
      simp only [Option.getD_some]
      exact List.mem_append_left _ h
    · exact h

theorem mergeTaxValues_isSome_mono (cat : String) (vs : List String)
    (cat₀ : String) (tx : List (String × List String))
    (h : (lookupA cat₀ tx).isSome) :
    (lookupA cat₀ (mergeTaxValues cat vs tx)).isSome := by
  induction vs generalizing tx with
  | nil => exact h
  | cons v rest ih =>
    rw [mergeTaxValues_cons]
    apply ih
    rw [taxStep_lookup]
    split
    · rfl
    · exact h

theorem mergeTaxValues_adds (cat : String) (vs : List String)
    (tx : List (String × List String)) (hsome : (lookupA cat tx).isSome) :
    ∀ v ∈ vs, v ∈ (lookupA cat (mergeTaxValues cat vs tx)).getD [] := by
  induction vs generalizing tx with
  | nil => intro v hv; simp at hv
  | cons v rest ih =>
    intro v₀ hv₀
    rcases List.mem_cons.mp hv₀ with rfl | hmem
    · rw [mergeTaxValues_cons]
      apply mergeTaxValues_lookup_mono cat rest cat v₀
      rw [taxStep_lookup]
      split
      · simp only [Option.getD_some]
        exact List.mem_append_right _ (by simp)
      · next hncond =>
        by_cases hv : v₀ ∈ (lookupA cat tx).getD []
        · exact hv
        · exact absurd ⟨rfl, hv, hsome⟩ hncond
    · rw [mergeTaxValues_cons]
      refine ih _ ?_ v₀ hmem
      rw [taxStep_lookup]
      split
      · rfl
      · exact hsome

theorem mergeTaxValues_noop (cat : String) (vs : List String)
    (tx : List (String × List String))
    (h : ∀ v ∈ vs, v ∈ (lookupA cat tx).getD []) :
    mergeTaxValues cat vs tx = tx := by
  induction vs with
  | nil => rfl
  | cons v rest ih =>
    rw [mergeTaxValues_cons, if_pos (h v (by simp))]
    exact ih (fun v' h' => h v' (List.mem_cons_of_mem _ h'))

end KP
namespace KP

/-! ## `mergeTaxonomies` lemmas -/

theorem mergeTaxonomies_cons (p : String × List String)
    (c : List (String × List String)) (tx : List (String × List String)) :
    mergeTaxonomies tx (p :: c) =
      mergeTaxonomies
        (mergeTaxValues p.1 p.2
          (if (lookupA p.1 tx).isSome then tx else tx ++ [(p.1, [])])) c := rfl

theorem create_lookup (cat cat₀ : String) (tx : List (String × List String)) :
    lookupA cat₀ (if (lookupA cat tx).isSome then tx else tx ++ [(cat, [])])
      = (match lookupA cat₀ tx with
         | some v => some v
         | none => if cat₀ = cat ∧ (lookupA cat tx) = none then some [] else none) := by
  by_cases hcc : cat₀ = cat
  · subst hcc
    cases h : lookupA cat₀ tx with
    | some v => simp [h]
    | none => simp [h, lookupA_append, lookupA]
  · cases h : lookupA cat₀ tx with
    | some v =>
      by_cases hs : (lookupA cat tx).isSome = true
      · simp [hs, h]
      · simp [hs, h, lookupA_append, lookupA, hcc]
    | none =>
      by_cases hs : (lookupA cat tx).isSome = true
      · simp [hs, h, hcc]
      · simp [hs, h, lookupA_append, lookupA, hcc]
        exact fun he => hcc he.symm

theorem mergeTaxonomies_lookup_mono (c : List (String × List String))
    (cat₀ v₀ : String) (tx : List (String × List String))
    (h : v₀ ∈ (lookupA cat₀ tx).getD []) :
    v₀ ∈ (lookupA cat₀ (mergeTaxonomies tx c)).getD [] := by
  induction c generalizing tx with
  | nil => exact h
  | cons p rest ih =>
    rw [mergeTaxonomies_cons]
    apply ih
    apply mergeTaxValues_lookup_mono
    rw [create_lookup]
    cases hl : lookupA cat₀ tx with
    | some v => rw [hl] at h; exact h
    | none => rw [hl] at h; simp at h

theorem mergeTaxonomies_isSome_mono (c : List (String × List String))
    (cat₀ : String) (tx : List (String × List String))
    (h : (lookupA cat₀ tx).isSome) :
    (lookupA cat₀ (mergeTaxonomies tx c)).isSome := by
  induction c generalizing tx with
  | nil => exact h
  | cons p rest ih =>
    rw [mergeTaxonomies_cons]
    apply ih
    apply mergeTaxValues_isSome_mono
    rw [create_lookup]
    cases hl : lookupA cat₀ tx with
    | some v => rfl
    | none => rw [hl] at h; simp at h

theorem mergeTaxonomies_adds (c : List (String × List String))
    (tx : List (String × List String)) :
    ∀ p ∈ c, ∀ v ∈ p.2, v ∈ (lookupA p.1 (mergeTaxonomies tx c)).getD [] := by
  induction c generalizing tx with
  | nil => intro p hp; simp at hp
  | cons q rest ih =>
    intro p hp v hv
    rcases List.mem_cons.mp hp with rfl | hmem
    · rw [mergeTaxonomies_cons]
      apply mergeTaxonomies_lookup_mono
      apply mergeTaxValues_adds _ _ _ _ v hv
      rw [create_lookup]
      cases hl : lookupA p.1 tx with
      | some w => rfl
      | none => simp [hl]
    · rw [mergeTaxonomies_cons]
      exact ih _ p hmem v hv

theorem mergeTaxonomies_isSome_adds (c : List (String × List String))
    (tx : List (String × List String)) :
    ∀ p ∈ c, (lookupA p.1 (mergeTaxonomies tx c)).isSome := by
  induction c generalizing tx with
  | nil => intro p hp; simp at hp
  | cons q rest ih =>
    intro p hp
    rcases List.mem_cons.mp hp with rfl | hmem
    · rw [mergeTaxonomies_cons]
      apply mergeTaxonomies_isSome_mono
      apply mergeTaxValues_isSome_mono
      rw [create_lookup]
      cases hl : lookupA p.1 tx with
      | some w => rfl
      | none => simp [hl]
    · rw [mergeTaxonomies_cons]
      exact ih _ p hmem

theorem mergeTaxonomies_noop (c : List (String × List String))
    (tx : List (String × List String))
    (h : ∀ p ∈ c, (lookupA p.1 tx).isSome ∧ ∀ v ∈ p.2, v ∈ (lookupA p.1 tx).getD []) :
    mergeTaxonomies tx c = tx := by
  induction c with
  | nil => rfl
  | cons p rest ih =>
    rw [mergeTaxonomies_cons]
    rcases h p (by simp) with ⟨hs, hv⟩
    rw [if_pos hs, mergeTaxValues_noop _ _ _ hv]
    exact ih (fun q hq => h q (List.mem_cons_of_mem _ hq))

theorem mergeTaxonomies_idem (e c : List (String × List String)) :
    mergeTaxonomies (mergeTaxonomies e c) c = mergeTaxonomies e c := by
  apply mergeTaxonomies_noop
  intro p hp
  exact ⟨mergeTaxonomies_isSome_adds c e p hp,
         fun v hv => mergeTaxonomies_adds c e p hp v hv⟩

theorem mergeTaxonomies_self (tx : List (String × List String))
    (hn : (tx.map Prod.fst).Nodup) : mergeTaxonomies tx tx = tx := by
  apply mergeTaxonomies_noop
  intro p hp
  have hl : lookupA p.1 tx = some p.2 := lookupA_of_nodup_mem tx p.1 p.2 hn (by
    rcases p with ⟨pk, pv⟩; exact hp)
  rw [hl]
  exact ⟨rfl, fun v hv => hv⟩

end KP
namespace KP

/-! ## Idempotence of the record merge -/

theorem academicExt (x y : Academic) (h1 : x.name = y.name) (h2 : x.bio = y.bio)
    (h3 : x.taxonomies = y.taxonomies) (h4 : x.papers = y.papers)
    (h5 : x.events = y.events) (h6 : x.connections = y.connections) : x = y := by
  cases x; cases y; simp_all

theorem mergeAcademic_bio_idem (e c : Academic) :
    (mergeAcademic (mergeAcademic e c) c).bio = (mergeAcademic e c).bio := by
  by_cases hb : c.bio = ""
  · simp [mergeAcademic, hb]
  · by_cases he : c.bio = e.bio <;> simp [mergeAcademic, hb, he]

theorem mergeAcademic_idem (e c : Academic) :
    mergeAcademic (mergeAcademic e c) c = mergeAcademic e c :=
  academicExt _ _ rfl (mergeAcademic_bio_idem e c)
    (mergeTaxonomies_idem _ _)
    (mergeDedup_idem paperSame paperSame_refl _ _)
    (mergeDedup_idem eventSame eventSame_refl _ _)
    (mergeDedup_idem strEq (fun x => by simp [strEq]) _ _)

theorem mergeAcademic_self (a : Academic)
    (htax : (a.taxonomies.map Prod.fst).Nodup) : mergeAcademic a a = a :=
  academicExt _ _ rfl (by simp [mergeAcademic])
    (mergeTaxonomies_self _ htax)
    (mergeDedup_noop _ _ _ (fun x hx => ⟨x, hx, paperSame_refl x⟩))
    (mergeDedup_noop _ _ _ (fun x hx => ⟨x, hx, eventSame_refl x⟩))
    (mergeDedup_noop _ _ _ (fun x hx => ⟨x, hx, by simp [strEq]⟩))

/-- Claim C5: `addOrUpdateAcademic` is idempotent under a healthy substrate. -/
theorem addOrUpdateAcademic_idem (sup : Bool) (now : Int) (a : Academic) (sys : Sys)
    (hname : a.name ≠ "") (htax : (a.taxonomies.map Prod.fst).Nodup) :
    ((addOrUpdateAcademic ⟨.ok, sup, now⟩ a
        ((addOrUpdateAcademic ⟨.ok, sup, now⟩ a sys).2)).2).db.academics
      = ((addOrUpdateAcademic ⟨.ok, sup, now⟩ a sys).2).db.academics := by
  have h1 := addOrUpdate_ok_academics ⟨.ok, sup, now⟩ rfl a sys hname
  have h2 := addOrUpdate_ok_academics ⟨.ok, sup, now⟩ rfl a
    ((addOrUpdateAcademic ⟨.ok, sup, now⟩ a sys).2) hname
  rw [h2, h1]
  cases hl : lookupA (normalizeNameKey a.name) sys.db.academics with
  | some e =>
    have hl2 : lookupA (normalizeNameKey a.name)
        (updateA (normalizeNameKey a.name) (mergeAcademic e a) sys.db.academics)
        = some (mergeAcademic e a) := by
      rw [lookupA_updateA_self, hl]; rfl
    simp only [hl2]
    rw [mergeAcademic_idem]
    exact updateA_of_lookupA_eq _ _ _ hl2
  | none =>
    have hl2 : lookupA (normalizeNameKey a.name)
        (sys.db.academics ++ [(normalizeNameKey a.name, a)]) = some a :=
      lookupA_append_right _ _ _ hl
    simp only [hl2]
    rw [mergeAcademic_self a htax]
    exact updateA_of_lookupA_eq _ _ _ hl2

end KP
namespace KP

/-- Witness for `addOrUpdateAcademic_idem` at a concrete record and store. -/
def c5cand : Academic :=
  ⟨"Jacques Derrida", "French philosopher",
   [("discipline", ["Philosophy"]), ("theme", ["Language"])],
   [⟨"Of Grammatology", some 1967, []⟩], [], ["Michel Foucault"]⟩

def c5sys : Sys := ⟨⟨[], [], [], [], []⟩, ⟨none, none, none, none, none⟩⟩

theorem addOrUpdateAcademic_idem_witness :
    c5cand.name ≠ "" ∧ (c5cand.taxonomies.map Prod.fst).Nodup ∧
    ((addOrUpdateAcademic ⟨.ok, true, 3⟩ c5cand
        ((addOrUpdateAcademic ⟨.ok, true, 3⟩ c5cand c5sys).2)).2).db.academics
      = ((addOrUpdateAcademic ⟨.ok, true, 3⟩ c5cand c5sys).2).db.academics :=
  ⟨by decide, by decide,
   addOrUpdateAcademic_idem true 3 c5cand c5sys (by decide) (by decide)⟩

/-- Claim C6: the dedup rule absorbs a case-insensitive title match with an
equal year, keeping the papers list length unchanged. -/
theorem paperDedup_length (sup : Bool) (now : Int) (sys : Sys) (key : String)
    (e c : Academic) (co : List String)
    (hkey : lookupA key sys.db.academics = some e)
    (hname : c.name ≠ "") (hk : normalizeNameKey c.name = key)
    (hp : (⟨"of grammatology", some 1967, co⟩ : Paper) ∈ e.papers)
    (hc : c.papers = [⟨"Of Grammatology", some 1967, []⟩]) :
    (lookupA key ((addOrUpdateAcademic ⟨.ok, sup, now⟩ c sys).2).db.academics).map
        (fun r => r.papers.length)
      = some e.papers.length := by
  rw [addOrUpdate_ok_academics ⟨.ok, sup, now⟩ rfl c sys hname, hk, hkey]
  have hl2 : lookupA key (updateA key (mergeAcademic e c) sys.db.academics)
      = some (mergeAcademic e c) := by
    rw [lookupA_updateA_self, hkey]; rfl
  have hmerge : (mergeAcademic e c).papers = e.papers := by
    show mergeDedup paperSame e.papers c.papers = e.papers
    rw [hc]
    apply mergeDedup_noop
    intro x hx
    rcases List.mem_singleton.mp hx with rfl
    refine ⟨⟨"of grammatology", some 1967, co⟩, hp, ?_⟩
    simp [paperSame, lowerStr, lowerChars]
  rw [hl2]
  show some (mergeAcademic e c).papers.length = some e.papers.length
  rw [hmerge]

end KP
namespace KP

def c6existing : Academic := ⟨"JD", "", [], [⟨"of grammatology", some 1967, []⟩], [], []⟩

def c6cand : Academic := ⟨"JD", "", [], [⟨"Of Grammatology", some 1967, []⟩], [], []⟩

def c6sys : Sys := ⟨⟨[("jd", c6existing)], [], [], [], []⟩, ⟨none, none, none, none, none⟩⟩

theorem paperDedup_length_witness :
    lookupA "jd" c6sys.db.academics = some c6existing ∧ c6cand.name ≠ "" ∧
    normalizeNameKey c6cand.name = "jd" ∧
    (⟨"of grammatology", some 1967, []⟩ : Paper) ∈ c6existing.papers ∧
    c6cand.papers = [⟨"Of Grammatology", some 1967, []⟩] ∧
    (lookupA "jd" ((addOrUpdateAcademic ⟨.ok, true, 0⟩ c6cand c6sys).2).db.academics).map
        (fun r => r.papers.length) = some c6existing.papers.length :=
  ⟨by decide, by decide, by decide, by decide, by decide,
   paperDedup_length true 0 c6sys "jd" c6existing c6cand [] (by decide) (by decide)
     (by decide) (by decide) (by decide)⟩

end KP
namespace KP

/-! ## Encode/decode roundtrips (claim C7) -/

theorem decList_str (l : List String) : decList decStr (l.map .str) = some l := by
  induction l with
  | nil => rfl
  | cons s rest ih => simp [decList, decStr, ih]

theorem decStrList_enc (l : List String) : decStrList (.arr (l.map .str)) = some l := by
  simp [decStrList, decList_str]

theorem decOptInt_enc (y : Option Int) : decOptInt (encOptInt y) = some y := by
  cases y <;> rfl

theorem decPaper_enc (p : Paper) : decPaper (encPaper p) = some p := by
  rcases p with ⟨t, y, co⟩
  simp [decPaper, encPaper, getField, decStr, decOptInt_enc, decStrList_enc, List.find?]

theorem decEvent_enc (e : Event) : decEvent (encEvent e) = some e := by
  rcases e with ⟨t, y, l⟩
  simp [decEvent, encEvent, getField, decStr, decOptInt_enc, List.find?]

theorem decList_paper (l : List Paper) : decList decPaper (l.map encPaper) = some l := by
  induction l with
  | nil => rfl
  | cons p rest ih => simp [decList, decPaper_enc, ih]

theorem decList_event (l : List Event) : decList decEvent (l.map encEvent) = some l := by
  induction l with
  | nil => rfl
  | cons e rest ih => simp [decList, decEvent_enc, ih]

theorem decTaxonomies_enc (tx : List (String × List String)) :
    decTaxonomies (encTaxonomies tx) = some tx := by
  simp only [decTaxonomies, encTaxonomies]
  induction tx with
  | nil => rfl
  | cons p rest ih =>
    rcases p with ⟨k, vs⟩
    simp only [List.map_cons, decTaxPairs, decStrList_enc]
    rw [show (List.map (fun p => (p.1, Json.arr (List.map Json.str p.2))) rest) =
      (encTaxonomies rest |> fun j => match j with | .obj kvs => kvs | _ => []) from rfl]
    simp only [encTaxonomies] at ih ⊢
    rw [ih]

theorem decAcademic_enc (a : Academic) : decAcademic (encAcademic a) = some a := by
  rcases a with ⟨n, b, tx, ps, es, cs⟩
  simp [decAcademic, encAcademic, getField, decStr, decTaxonomies_enc, decList_paper,
    decList_event, decStrList_enc, List.find?]

theorem decodeCatalog_enc (acs : List (String × Academic)) :
    decodeCatalog (encodeCatalog acs) = some acs := by
  simp only [decodeCatalog, encodeCatalog]
  induction acs with
  | nil => rfl
  | cons p rest ih =>
    rcases p with ⟨k, a⟩
    simp only [List.map_cons, decCatPairs, decAcademic_enc]
    simp only at ih
    rw [ih]

end KP
namespace KP

/-- Claim C7: `importFromJSON ∘ exportToJSON` reproduces the catalog. -/
theorem exportImport_roundtrip (now nowE : Int) (sys : Sys)
    (hne : sys.db.academics ≠ []) :
    (importFromJSON ⟨.ok, true, now⟩ (exportToJSON ⟨.ok, true, nowE⟩ sys) sys).1 = true ∧
    ((importFromJSON ⟨.ok, true, now⟩ (exportToJSON ⟨.ok, true, nowE⟩ sys) sys).2).db.academics
      = sys.db.academics := by
  simp only [importFromJSON, exportToJSON, parseStored]
  rw [show getField (.obj [("academics", encodeCatalog sys.db.academics),
        ("taxonomyCategories", encTaxonomies sys.db.taxonomyCategories),
        ("exportDate", .num nowE)]) "academics"
      = some (encodeCatalog sys.db.academics) from rfl]
  rw [show getField (.obj [("academics", encodeCatalog sys.db.academics),
        ("taxonomyCategories", encTaxonomies sys.db.taxonomyCategories),
        ("exportDate", .num nowE)]) "taxonomyCategories"
      = some (encTaxonomies sys.db.taxonomyCategories) from rfl]
  dsimp only
  rw [show jsTruthyObject (encodeCatalog sys.db.academics) = true from rfl]
  rw [decodeCatalog_enc]
  rw [show jsTruthy (encTaxonomies sys.db.taxonomyCategories) = true from rfl]
  rw [decTaxonomies_enc]
  simp only [Bool.not_true, Bool.false_eq_true, if_false, if_true]
  cases hsv : saveToLocalStorage ⟨.ok, true, now⟩
      ⟨⟨sys.db.academics, sys.db.noveltyTiles, sys.db.favorites,
        sys.db.pendingSubmissions, sys.db.taxonomyCategories⟩, sys.storage⟩ with
  | mk b sys3 =>
    have hb : b = true := by
      have h := save_ok_true ⟨.ok, true, now⟩ rfl rfl
        ⟨⟨sys.db.academics, sys.db.noveltyTiles, sys.db.favorites,
          sys.db.pendingSubmissions, sys.db.taxonomyCategories⟩, sys.storage⟩
      rw [hsv] at h
      exact h
    subst hb
    have hdb : sys3.db = sys.db := by
      have h := save_ok_db ⟨.ok, true, now⟩ rfl
        ⟨⟨sys.db.academics, sys.db.noveltyTiles, sys.db.favorites,
          sys.db.pendingSubmissions, sys.db.taxonomyCategories⟩, sys.storage⟩
      rw [hsv] at h
      exact h
    refine ⟨rfl, ?_⟩
    rw [addNoveltyTile_ok_academics ⟨.ok, true, now⟩ rfl, hdb]

end KP

namespace KP

theorem exportImport_roundtrip_witness :
    c6sys.db.academics ≠ [] ∧
    ((importFromJSON ⟨.ok, true, 1⟩ (exportToJSON ⟨.ok, true, 2⟩ c6sys) c6sys).1 = true ∧
     ((importFromJSON ⟨.ok, true, 1⟩ (exportToJSON ⟨.ok, true, 2⟩ c6sys) c6sys).2).db.academics
       = c6sys.db.academics) :=
  ⟨by decide, exportImport_roundtrip 1 2 c6sys (by decide)⟩

end KP
namespace KP

/-! ## Stable-sort lemmas for the search ranking (claim C8) -/

theorem insLe_perm {α : Type} (le : α → α → Bool) (x : α) (s : List α) :
    (insLe le x s).Perm (x :: s) := by
  induction s with
  | nil => exact List.Perm.refl _
  | cons y ys ih =>
    simp only [insLe]
    split
    · exact ((ih.cons y).trans (List.Perm.swap x y ys))
    · exact List.Perm.refl _

theorem isortLe_perm {α : Type} (le : α → α → Bool) (l : List α) :
    (isortLe le l).Perm l := by
  induction l with
  | nil => exact List.Perm.refl _
  | cons x xs ih => exact (insLe_perm le x (isortLe le xs)).trans (ih.cons x)

theorem mem_isortLe {α : Type} (le : α → α → Bool) (l : List α) (a : α) :
    a ∈ isortLe le l ↔ a ∈ l := (isortLe_perm le l).mem_iff

theorem insLe_congr {α : Type} (le₁ le₂ : α → α → Bool) (x : α) (s : List α)
    (h : ∀ y ∈ s, le₁ y x = le₂ y x ∧ le₁ x y = le₂ x y) :
    insLe le₁ x s = insLe le₂ x s := by
  induction s with
  | nil => rfl
  | cons y ys ih =>
    have hy := h y (by simp)
    simp only [insLe, hy.1, hy.2]
    split
    · rw [ih (fun z hz => h z (List.mem_cons_of_mem _ hz))]
    · rfl

theorem isortLe_congr {α : Type} (le₁ le₂ : α → α → Bool) (l : List α)
    (h : ∀ a ∈ l, ∀ b ∈ l, le₁ a b = le₂ a b) :
    isortLe le₁ l = isortLe le₂ l := by
  induction l with
  | nil => rfl
  | cons x xs ih =>
    simp only [isortLe]
    rw [ih (fun a ha b hb => h a (List.mem_cons_of_mem _ ha) b (List.mem_cons_of_mem _ hb))]
    apply insLe_congr
    intro y hy
    have hy' : y ∈ xs := (mem_isortLe le₂ xs y).mp hy
    exact ⟨h y (List.mem_cons_of_mem _ hy') x (by simp),
           h x (by simp) y (List.mem_cons_of_mem _ hy')⟩

theorem pairwise_insLe {α : Type} (le : α → α → Bool) (x : α) (s : List α)
    (htrans : ∀ a b c, le a b = true → le b c = true → le a c = true)
    (htot : ∀ a b, le a b = true ∨ le b a = true)
    (hs : s.Pairwise (fun a b => le a b = true)) :
    (insLe le x s).Pairwise (fun a b => le a b = true) := by
  induction s with
  | nil => simp [insLe]
  | cons y ys ih =>
    rcases List.pairwise_cons.mp hs with ⟨hy, hys⟩
    simp only [insLe]
    split
    · next hcase =>
      simp only [Bool.and_eq_true, Bool.not_eq_true'] at hcase
      rcases hcase with ⟨hyx, _⟩
      refine List.pairwise_cons.mpr ⟨?_, ih hys⟩
      intro z hz
      rcases List.mem_cons.mp ((insLe_perm le x ys).mem_iff.mp hz) with rfl | h
      · exact hyx
      · exact hy z h
    · next hcase =>
      have hxy : le x y = true := by
        rcases htot x y with h | h
        · exact h
        · by_cases h2 : le x y = true
          · exact h2
          · exact absurd (by simp [h, h2]) hcase
      refine List.pairwise_cons.mpr ⟨?_, hs⟩
      intro z hz
      rcases List.mem_cons.mp hz with rfl | h
      · exact hxy
      · exact htrans x y z hxy (hy z h)

theorem pairwise_isortLe {α : Type} (le : α → α → Bool) (l : List α)
    (htrans : ∀ a b c, le a b = true → le b c = true → le a c = true)
    (htot : ∀ a b, le a b = true ∨ le b a = true) :
    (isortLe le l).Pairwise (fun a b => le a b = true) := by
  induction l with
  | nil => simp [isortLe]
  | cons x xs ih => exact pairwise_insLe le x _ htrans htot ih

end KP
namespace KP

theorem filter_insLe {α κ : Type} [DecidableEq κ] (le : α → α → Bool) (k : α → κ)
    (x : α) (s : List α) (v : κ)
    (hstrict : ∀ y ∈ s, le y x = true → le x y = false → k y ≠ k x) :
    (insLe le x s).filter (fun z => decide (k z = v)) =
      if k x = v then x :: s.filter (fun z => decide (k z = v))
      else s.filter (fun z => decide (k z = v)) := by
  induction s with
  | nil =>
    by_cases hkx : k x = v <;> simp [insLe, hkx]
  | cons y ys ih =>
    simp only [insLe]
    split
    · next hcase =>
      simp only [Bool.and_eq_true, Bool.not_eq_true'] at hcase
      have ihh := ih (fun z hz => hstrict z (List.mem_cons_of_mem _ hz))
      by_cases hkx : k x = v
      · have hky : k y ≠ v := fun h =>
          hstrict y (by simp) hcase.1 hcase.2 (h.trans hkx.symm)
        simp [hky, hkx, ihh]
      · by_cases hky : k y = v <;> simp [hky, hkx, ihh]
    · by_cases hkx : k x = v <;> by_cases hky : k y = v <;> simp [hkx, hky]

theorem filter_isortLe {α κ : Type} [DecidableEq κ] (le : α → α → Bool) (k : α → κ)
    (l : List α) (v : κ)
    (hstrict : ∀ a ∈ l, ∀ b ∈ l, le a b = true → le b a = false → k a ≠ k b) :
    (isortLe le l).filter (fun z => decide (k z = v)) =
      l.filter (fun z => decide (k z = v)) := by
  induction l with
  | nil => rfl
  | cons x xs ih =>
    simp only [isortLe]
    rw [filter_insLe le k x (isortLe le xs) v (fun y hy h1 h2 =>
      hstrict y (List.mem_cons_of_mem _ ((mem_isortLe le xs y).mp hy)) x (by simp) h1 h2)]
    rw [ih (fun a ha b hb => hstrict a (List.mem_cons_of_mem _ ha) b
      (List.mem_cons_of_mem _ hb))]
    by_cases hkx : k x = v <;> simp [hkx]

/-! ### The relevance key realized by the comparator -/

/-- 0 for a case-insensitive exact name match, 1 otherwise. -/
def searchRank (q : String) (a : Academic) : Nat :=
  if lowerStr a.name = lowerStr q then 0 else 1

/-- Index of the first occurrence of the query in the name (both lowered). -/
def searchIdx (q : String) (a : Academic) : Int :=
  strIndexOf (lowerStr a.name) (lowerStr q)

/-- The pair the comparator orders matching results by. -/
def searchKey (q : String) (a : Academic) : Nat × Int :=
  (searchRank q a, searchIdx q a)

/-- Lexicographic `<=` on the key, as a Boolean. -/
def keyLeB (q : String) (a b : Academic) : Bool :=
  decide (searchRank q a < searchRank q b) ||
    (decide (searchRank q a = searchRank q b) && decide (searchIdx q a ≤ searchIdx q b))

theorem searchLe_eq_keyLeB (q : String) (a b : Academic)
    (ha : searchIdx q a ≠ -1) (hb : searchIdx q b ≠ -1) :
    searchLe q a b = keyLeB q a b := by
  unfold searchLe searchCmp keyLeB searchRank searchIdx
  unfold searchIdx at ha hb
  by_cases hA : lowerStr a.name = lowerStr q
  · by_cases hB : lowerStr b.name = lowerStr q
    · rw [hA] at ha ⊢
      rw [hB] at hb ⊢
      simp [ha, hb]
    · simp [hA, hB, ha, hb]
  · by_cases hB : lowerStr b.name = lowerStr q
    · simp [hA, hB, ha, hb]
    · simp [hA, hB, ha, hb, decide_eq_decide]
      try omega

theorem keyLeB_trans (q : String) (a b c : Academic)
    (h1 : keyLeB q a b = true) (h2 : keyLeB q b c = true) : keyLeB q a c = true := by
  simp only [keyLeB, Bool.or_eq_true, Bool.and_eq_true, decide_eq_true_eq] at *
  omega

theorem keyLeB_total (q : String) (a b : Academic) :
    keyLeB q a b = true ∨ keyLeB q b a = true := by
  simp only [keyLeB, Bool.or_eq_true, Bool.and_eq_true, decide_eq_true_eq]
  omega

theorem keyLeB_strict_ne (q : String) (a b : Academic)
    (h1 : keyLeB q a b = true) (h2 : keyLeB q b a = false) :
    searchKey q a ≠ searchKey q b := by
  simp only [keyLeB, Bool.or_eq_true, Bool.and_eq_true, decide_eq_true_eq,
    Bool.or_eq_false_iff, Bool.and_eq_false_iff, decide_eq_false_iff_not] at h1 h2
  intro he
  simp only [searchKey, Prod.mk.injEq] at he
  rcases h2 with ⟨h2a, h2b⟩
  rcases h2b with h2b | h2b <;> omega

theorem matches_idx (c : Criteria) (q : String) (hc : critVal c.name = some q)
    (a : Academic) (hm : acadMatches c a = true) : searchIdx q a ≠ -1 := by
  have h1 : strIncludes (lowerStr a.name) (lowerStr q) = true := by
    simp only [acadMatches, hc, Bool.and_eq_true] at hm
    exact hm.1.1.1.1.1
  simp only [strIncludes, Option.isSome_iff_exists] at h1
  rcases h1 with ⟨n, hn⟩
  simp only [searchIdx, strIndexOf, hn]
  intro h
  have : (n : Int) ≥ 0 := Int.natCast_nonneg n
  omega

end KP
namespace KP

/-- Claim C8 (amended): with a name criterion, the result is a permutation of
the records matching all criteria, sorted by (exactness, match position);
records with equal keys keep their catalog order. -/
theorem searchAcademics_ranked (q : String) (hq : q ≠ "")
    (d t e m th : Option String) (acs : List (String × Academic)) :
    (searchAcademics ⟨some q, d, t, e, m, th⟩ acs).Perm
        ((acs.map Prod.snd).filter (acadMatches ⟨some q, d, t, e, m, th⟩)) ∧
    (searchAcademics ⟨some q, d, t, e, m, th⟩ acs).Pairwise
        (fun a b => searchRank q a < searchRank q b ∨
          (searchRank q a = searchRank q b ∧ searchIdx q a ≤ searchIdx q b)) ∧
    (∀ v : Nat × Int,
      (searchAcademics ⟨some q, d, t, e, m, th⟩ acs).filter
          (fun z => decide (searchKey q z = v))
        = ((acs.map Prod.snd).filter (acadMatches ⟨some q, d, t, e, m, th⟩)).filter
            (fun z => decide (searchKey q z = v))) := by
  have hcv : critVal (Criteria.mk (some q) d t e m th).name = some q := by
    simp [critVal, hq]
  have hs : searchAcademics ⟨some q, d, t, e, m, th⟩ acs
      = isortLe (searchLe q)
          ((acs.map Prod.snd).filter (acadMatches ⟨some q, d, t, e, m, th⟩)) := by
    simp only [searchAcademics, hcv]
  have hmatch : ∀ x ∈ (acs.map Prod.snd).filter (acadMatches ⟨some q, d, t, e, m, th⟩),
      searchIdx q x ≠ -1 := fun x hx =>
    matches_idx _ q hcv x (List.of_mem_filter hx)
  have hcongr : isortLe (searchLe q)
        ((acs.map Prod.snd).filter (acadMatches ⟨some q, d, t, e, m, th⟩))
      = isortLe (keyLeB q)
          ((acs.map Prod.snd).filter (acadMatches ⟨some q, d, t, e, m, th⟩)) :=
    isortLe_congr _ _ _ (fun a ha b hb =>
      searchLe_eq_keyLeB q a b (hmatch a ha) (hmatch b hb))
  refine ⟨?_, ?_, ?_⟩
  · rw [hs]
    exact isortLe_perm _ _
  · rw [hs, hcongr]
    have hp := pairwise_isortLe (keyLeB q)
      ((acs.map Prod.snd).filter (acadMatches ⟨some q, d, t, e, m, th⟩))
      (keyLeB_trans q) (keyLeB_total q)
    exact hp.imp (fun h => by
      simpa only [keyLeB, Bool.or_eq_true, Bool.and_eq_true, decide_eq_true_eq] using h)
  · intro v
    rw [hs, hcongr]
    exact filter_isortLe (keyLeB q) (searchKey q) _ v
      (fun a _ b _ h1 h2 => keyLeB_strict_ne q a b h1 h2)

def c8foucault : Academic := ⟨"Michel Foucault", "", [], [], [], []⟩

def c8henry : Academic := ⟨"Michel Henry", "", [], [], [], []⟩

def c8store : List (String × Academic) :=
  [("michel-henry", c8henry), ("michel-foucault", c8foucault)]

theorem searchAcademics_ranked_witness :
    ("Michel Foucault" : String) ≠ "" ∧
    ((searchAcademics ⟨some "Michel Foucault", none, none, none, none, none⟩ c8store).Perm
        ((c8store.map Prod.snd).filter
          (acadMatches ⟨some "Michel Foucault", none, none, none, none, none⟩)) ∧
     (searchAcademics ⟨some "Michel Foucault", none, none, none, none, none⟩ c8store).Pairwise
        (fun a b => searchRank "Michel Foucault" a < searchRank "Michel Foucault" b ∨
          (searchRank "Michel Foucault" a = searchRank "Michel Foucault" b ∧
           searchIdx "Michel Foucault" a ≤ searchIdx "Michel Foucault" b)) ∧
     (∀ v : Nat × Int,
       (searchAcademics ⟨some "Michel Foucault", none, none, none, none, none⟩
           c8store).filter (fun z => decide (searchKey "Michel Foucault" z = v))
         = ((c8store.map Prod.snd).filter
             (acadMatches ⟨some "Michel Foucault", none, none, none, none, none⟩)).filter
             (fun z => decide (searchKey "Michel Foucault" z = v)))) :=
  ⟨by decide, searchAcademics_ranked "Michel Foucault" (by decide) none none none none none
    c8store⟩

/-- The exact match ranks first on the spec's own instance. -/
theorem searchMichelFoucault :
    (searchAcademics ⟨some "Michel Foucault", none, none, none, none, none⟩ c8store).map
        (fun a => a.name) = ["Michel Foucault"] := by decide

def c8bMichel : Academic := ⟨"B Michel", "", [], [], [], []⟩

def c8aMichel : Academic := ⟨"A Michel", "", [], [], [], []⟩

theorem c8_counterexample :
    ¬ (searchAcademics ⟨some "Michel", none, none, none, none, none⟩
        [("b-michel", c8bMichel), ("a-michel", c8aMichel)]).Pairwise
      (fun a b => searchRank "Michel" a < searchRank "Michel" b ∨
        (searchRank "Michel" a = searchRank "Michel" b ∧
         searchIdx "Michel" a < searchIdx "Michel" b) ∨
        (searchRank "Michel" a = searchRank "Michel" b ∧
         searchIdx "Michel" a = searchIdx "Michel" b ∧ strLeB a.name b.name = true)) := by
  decide

end KP
namespace KP

/-! ## Claims C3 and C4: the extractor's hard failure conditions -/

def c4text : String :=
  "Name: Jacques Derrida\nBio: French philosopher known for deconstruction.\nPapers:\n- Of Grammatology (1967)\n- Writing and Difference, 1967\nConnections:\n- Michel Foucault\n- Emmanuel Levinas"

set_option maxRecDepth 100000 in
/-- Claim C4: on the spec's own extraction scenario the function returns
`null`, although the heading branch would determine the name. -/
theorem extract_c4_null :
    extractAcademicData c4text = none ∧
    headingName c4text.data = some "Jacques Derrida" := by decide

def c3text : String := "Name: Alice\nBio: Logician."

set_option maxRecDepth 100000 in
theorem c3_counterexample :
    extractAcademicData c3text = none ∧
    headingName c3text.data = some "Alice" ∧
    jsonFenceAcademic c3text.data = none := by decide

/-- Claim C3 (amended): `extractAcademicData` returns `NotFound` iff the
initial lowercase `'name'`/`'bio'` containment guard fails, or neither the
fenced-JSON branch nor the heading branch determines a name. -/
theorem extractAcademicData_none_iff (text : String) :
    extractAcademicData text = none ↔
      (extractGuardFails text = true ∨
       (jsonFenceAcademic text.data = none ∧ headingName text.data = none)) := by
  unfold extractAcademicData
  by_cases hg : extractGuardFails text = true
  · simp [hg]
  · simp only [hg, if_false, Bool.false_eq_true, false_or]
    cases hj : jsonFenceAcademic text.data with
    | some a => simp
    | none =>
      cases hn : headingName text.data with
      | some nm => simp
      | none => simp

end KP
namespace KP

/-! ## Claim C2: reciprocal propagation infrastructure -/

/-- Keys paired with display names: everything `getAcademicEntry`'s
resolution inspects. -/
def keyNames (acs : List (String × Academic)) : List (String × String) :=
  acs.map (fun p => (p.1, p.2.name))

/-- Connections of the record stored under `k` (empty when absent). -/
def connAt (k : String) (acs : List (String × Academic)) : List String :=
  match lookupA k acs with
  | some r => r.connections
  | none => []

/-- Well-formedness a JS store always has: one binding per key, each record
keyed by its own normalized non-empty name. -/
def CatalogWF (acs : List (String × Academic)) : Prop :=
  (acs.map Prod.fst).Nodup ∧
    ∀ p ∈ acs, normalizeNameKey p.2.name = p.1 ∧ p.2.name ≠ ""

/-- `getAcademicEntry`'s resolution computed from keys and names alone. -/
def resolveKey (name : String) (kn : List (String × String)) : Option String :=
  if name = "" then none
  else
    let k := normalizeNameKey name
    if (lookupA k kn).isSome then some k
    else
      match kn.find? (fun p => lowerStr p.2 = lowerStr name) with
      | some p => some p.1
      | none =>
        (kn.find? (fun p =>
          strIncludes (lowerStr p.2) (lowerStr name) ||
            strIncludes (lowerStr name) (lowerStr p.2))).map Prod.fst

theorem lookupA_keyNames (k : String) (acs : List (String × Academic)) :
    lookupA k (keyNames acs) = (lookupA k acs).map (fun r => r.name) := by
  induction acs with
  | nil => rfl
  | cons p rest ih =>
    rcases p with ⟨pk, pv⟩
    by_cases hp : pk = k <;> simp [keyNames, lookupA, hp] <;> simpa [keyNames] using ih

theorem find?_keyNames (p : String → Bool) (acs : List (String × Academic)) :
    (keyNames acs).find? (fun q => p q.2)
      = (acs.find? (fun q => p q.2.name)).map (fun q => (q.1, q.2.name)) := by
  induction acs with
  | nil => rfl
  | cons q rest ih =>
    rcases q with ⟨qk, qv⟩
    by_cases hq : p qv.name = true
    · simp [keyNames, List.find?, hq]
    · simp only [Bool.not_eq_true] at hq
      simp [keyNames, List.find?, hq] at ih ⊢
      simpa [keyNames] using ih

theorem getEntry_map_fst (b : String) (acs : List (String × Academic)) :
    (getAcademicEntry b acs).map Prod.fst = resolveKey b (keyNames acs) := by
  unfold getAcademicEntry resolveKey
  by_cases hb : b = ""
  · simp [hb]
  · simp only [hb, if_false]
    rw [lookupA_keyNames]
    cases h1 : lookupA (normalizeNameKey b) acs with
    | some r => simp
    | none =>
      simp only [Option.map_none, Option.isSome_none, Bool.false_eq_true, if_false]
      rw [find?_keyNames (fun nm => lowerStr nm = lowerStr b)]
      cases h2 : acs.find? (fun q => lowerStr q.2.name = lowerStr b) with
      | some q => simp
      | none =>
        simp only [Option.map_none]
        rw [find?_keyNames (fun nm =>
          strIncludes (lowerStr nm) (lowerStr b) || strIncludes (lowerStr b) (lowerStr nm))]
        cases h3 : acs.find? (fun q =>
            strIncludes (lowerStr q.2.name) (lowerStr b) ||
              strIncludes (lowerStr b) (lowerStr q.2.name)) with
        | some q => simp
        | none => simp

theorem lookupA_mem {β : Type} (k : String) (v : β) (l : List (String × β))
    (h : lookupA k l = some v) : (k, v) ∈ l := by
  induction l with
  | nil => simp [lookupA] at h
  | cons p rest ih =>
    rcases p with ⟨pk, pv⟩
    by_cases hp : pk = k
    · subst hp
      simp [lookupA] at h
      simp [h]
    · simp [lookupA, hp] at h
      exact List.mem_cons_of_mem _ (ih h)

theorem lookupA_isSome_of_mem_keys {β : Type} (k : String) (l : List (String × β))
    (h : k ∈ l.map Prod.fst) : (lookupA k l).isSome := by
  induction l with
  | nil => simp at h
  | cons p rest ih =>
    rcases p with ⟨pk, pv⟩
    by_cases hp : pk = k
    · subst hp; simp [lookupA]
    · simp only [List.map_cons, List.mem_cons] at h
      rcases h with h | h
      · exact absurd h.symm hp
      · simp [lookupA, hp]
        exact ih h

theorem lookupA_none_notmem {β : Type} (k : String) (l : List (String × β))
    (h : lookupA k l = none) : k ∉ l.map Prod.fst := by
  intro hmem
  have := lookupA_isSome_of_mem_keys k l hmem
  rw [h] at this
  simp at this

theorem getEntry_lookup (b : String) (acs : List (String × Academic))
    (hwf : CatalogWF acs) (k : String) (r : Academic)
    (h : getAcademicEntry b acs = some (k, r)) : lookupA k acs = some r := by
  unfold getAcademicEntry at h
  by_cases hb : b = ""
  · simp [hb] at h
  · simp only [hb, if_false] at h
    cases h1 : lookupA (normalizeNameKey b) acs with
    | some r0 =>
      rw [h1] at h
      simp at h
      rcases h with ⟨hk, hr⟩
      rw [← hk, h1, hr]
    | none =>
      rw [h1] at h
      cases h2 : acs.find? (fun q => lowerStr q.2.name = lowerStr b) with
      | some q =>
        rw [h2] at h
        simp at h
        subst h
        exact lookupA_of_nodup_mem acs k r hwf.1 (List.mem_of_find?_eq_some h2)
      | none =>
        rw [h2] at h
        cases h3 : acs.find? (fun q =>
            strIncludes (lowerStr q.2.name) (lowerStr b) ||
              strIncludes (lowerStr b) (lowerStr q.2.name)) with
        | none => rw [h3] at h; simp at h
        | some q =>
          rw [h3] at h
          simp at h
          subst h
          exact lookupA_of_nodup_mem acs k r hwf.1 (List.mem_of_find?_eq_some h3)

end KP
namespace KP

theorem keyNames_updateA (k : String) (r' : Academic) (acs : List (String × Academic))
    (h : ∀ r, lookupA k acs = some r → r'.name = r.name) :
    keyNames (updateA k r' acs) = keyNames acs := by
  induction acs with
  | nil => rfl
  | cons p rest ih =>
    rcases p with ⟨pk, pv⟩
    by_cases hp : pk = k
    · subst hp
      have : r'.name = pv.name := h pv (by simp [lookupA])
      simp [updateA, keyNames, this]
    · simp only [updateA, if_neg hp, keyNames, List.map_cons]
      have := ih (fun r hr => h r (by simp [lookupA, hp, hr]))
      simpa [keyNames] using this

theorem catalogWF_of_keyNames (acs₁ acs₂ : List (String × Academic))
    (h : keyNames acs₁ = keyNames acs₂) (hwf : CatalogWF acs₁) : CatalogWF acs₂ := by
  constructor
  · have h1 : (keyNames acs₁).map Prod.fst = acs₁.map Prod.fst := by
      simp [keyNames, Function.comp]
    have h2 : (keyNames acs₂).map Prod.fst = acs₂.map Prod.fst := by
      simp [keyNames, Function.comp]
    rw [← h2, ← h, h1]
    exact hwf.1
  · intro p hp
    have hmem : (p.1, p.2.name) ∈ keyNames acs₂ :=
      List.mem_map_of_mem (fun q => (q.1, q.2.name)) hp
    rw [← h] at hmem
    rcases List.mem_map.mp hmem with ⟨q, hq, he⟩
    have hw := hwf.2 q hq
    injection he with he1 he2
    exact ⟨he1 ▸ he2 ▸ hw.1, he2 ▸ hw.2⟩

theorem enrichConnStep_post (sup : Bool) (now : Int) (aname conn : String) (sys : Sys)
    (hwf : CatalogWF sys.db.academics) :
    keyNames ((enrichConnStep ⟨.ok, sup, now⟩ aname sys conn).db.academics)
        = keyNames sys.db.academics ∧
    (∀ k₀ x, x ∈ connAt k₀ sys.db.academics →
      x ∈ connAt k₀ ((enrichConnStep ⟨.ok, sup, now⟩ aname sys conn).db.academics)) ∧
    (∀ k, resolveKey conn (keyNames sys.db.academics) = some k →
      aname ∈ connAt k ((enrichConnStep ⟨.ok, sup, now⟩ aname sys conn).db.academics)) := by
  unfold enrichConnStep
  cases hge : getAcademicEntry conn sys.db.academics with
  | none =>
    simp only [hge]
    refine ⟨trivial, fun _ _ h => h, ?_⟩
    intro k hk
    rw [← getEntry_map_fst, hge] at hk
    simp at hk
  | some kr =>
    obtain ⟨k, r⟩ := kr
    have hlk : lookupA k sys.db.academics = some r := getEntry_lookup _ _ hwf _ _ hge
    have hkey : resolveKey conn (keyNames sys.db.academics) = some k := by
      rw [← getEntry_map_fst, hge]; rfl
    by_cases hin : aname ∈ r.connections
    · simp only [if_pos hin]
      refine ⟨trivial, fun _ _ h => h, ?_⟩
      intro k' hk'
      rw [hkey] at hk'
      cases hk'
      simp [connAt, hlk, hin]
    · simp only [if_neg hin]
      have hwr := hwf.2 (k, r) (lookupA_mem _ _ _ hlk)
      have hlkP : lookupA k (updateA k
          { r with connections := r.connections ++ [aname] } sys.db.academics)
          = some { r with connections := r.connections ++ [aname] } := by
        rw [lookupA_updateA_self, hlk]; rfl
      have hknP : keyNames (updateA k
          { r with connections := r.connections ++ [aname] } sys.db.academics)
          = keyNames sys.db.academics :=
        keyNames_updateA _ _ _ (fun r0 h0 => by rw [hlk] at h0; cases h0; rfl)
      have hacsQ := addOrUpdate_ok_academics ⟨.ok, sup, now⟩ rfl
        { r with connections := r.connections ++ [aname] }
        ⟨⟨updateA k { r with connections := r.connections ++ [aname] } sys.db.academics,
          sys.db.noveltyTiles, sys.db.favorites, sys.db.pendingSubmissions,
          sys.db.taxonomyCategories⟩, sys.storage⟩
        (by simpa using hwr.2)
      rw [show normalizeNameKey ({ r with connections := r.connections ++ [aname] }
            : Academic).name = k from hwr.1] at hacsQ
      simp only [hlkP] at hacsQ
      rw [addNoveltyTile_ok_academics ⟨.ok, sup, now⟩ rfl]
      rw [hacsQ]
      refine ⟨?_, ?_, ?_⟩
      · rw [keyNames_updateA _ _ _ (fun r0 h0 => by rw [hlkP] at h0; cases h0; rfl), hknP]
      · intro k₀ x hx
        by_cases hk₀ : k₀ = k
        · subst hk₀
          have hconn : x ∈ ({ r with connections := r.connections ++ [aname] }
              : Academic).connections := by
            simp only [connAt, hlk] at hx
            exact List.mem_append_left _ hx
          have hlkQ : lookupA k₀ (updateA k₀ (mergeAcademic
              { r with connections := r.connections ++ [aname] }
              { r with connections := r.connections ++ [aname] })
              (updateA k₀ { r with connections := r.connections ++ [aname] }
                sys.db.academics)) = some (mergeAcademic
              { r with connections := r.connections ++ [aname] }
              { r with connections := r.connections ++ [aname] }) := by
            rw [lookupA_updateA_self, hlkP]; rfl
          simp only [connAt, hlkQ]
          exact mem_mergeDedup_left _ _ _ _ hconn
        · have hne : k ≠ k₀ := fun he => hk₀ he.symm
          simp only [connAt, lookupA_updateA_ne k₀ k hne, lookupA_updateA_ne k₀ k hne]
          simpa [connAt] using hx
      · intro k' hk'
        rw [hkey] at hk'
        cases hk'
        have hlkQ : lookupA k (updateA k (mergeAcademic
            { r with connections := r.connections ++ [aname] }
            { r with connections := r.connections ++ [aname] })
            (updateA k { r with connections := r.connections ++ [aname] }
              sys.db.academics)) = some (mergeAcademic
            { r with connections := r.connections ++ [aname] }
            { r with connections := r.connections ++ [aname] }) := by
          rw [lookupA_updateA_self, hlkP]; rfl
        simp only [connAt, hlkQ]
        exact mem_mergeDedup_left _ _ _ _ (List.mem_append_right _ (by simp))

end KP
namespace KP

theorem enrichLoop_post (sup : Bool) (now : Int) (aname : String) (conns : List String)
    (sys : Sys) (hwf : CatalogWF sys.db.academics) :
    keyNames ((conns.foldl (enrichConnStep ⟨.ok, sup, now⟩ aname) sys).db.academics)
        = keyNames sys.db.academics ∧
    CatalogWF ((conns.foldl (enrichConnStep ⟨.ok, sup, now⟩ aname) sys).db.academics) ∧
    (∀ k₀ x, x ∈ connAt k₀ sys.db.academics →
      x ∈ connAt k₀ ((conns.foldl (enrichConnStep ⟨.ok, sup, now⟩ aname) sys).db.academics)) ∧
    (∀ b ∈ conns, ∀ k, resolveKey b (keyNames sys.db.academics) = some k →
      aname ∈ connAt k
        ((conns.foldl (enrichConnStep ⟨.ok, sup, now⟩ aname) sys).db.academics)) := by
  induction conns generalizing sys with
  | nil =>
    refine ⟨rfl, hwf, fun _ _ h => h, ?_⟩
    intro b hb
    simp at hb
  | cons c cs ih =>
    simp only [List.foldl_cons]
    have hstep := enrichConnStep_post sup now aname c sys hwf
    have hwf' : CatalogWF ((enrichConnStep ⟨.ok, sup, now⟩ aname sys c).db.academics) :=
      catalogWF_of_keyNames _ _ hstep.1.symm hwf
    have hih := ih (enrichConnStep ⟨.ok, sup, now⟩ aname sys c) hwf'
    refine ⟨hih.1.trans hstep.1, hih.2.1, ?_, ?_⟩
    · intro k₀ x hx
      exact hih.2.2.1 k₀ x (hstep.2.1 k₀ x hx)
    · intro b hb k hk
      rcases List.mem_cons.mp hb with rfl | hb'
      · exact hih.2.2.1 k aname (hstep.2.2 k hk)
      · exact hih.2.2.2 b hb' k (by rw [hstep.1]; exact hk)

end KP
namespace KP

theorem addOrUpdate_ok_wf (sup : Bool) (now : Int) (a : Academic) (sys : Sys)
    (hwf : CatalogWF sys.db.academics) (hname : a.name ≠ "") :
    CatalogWF (((addOrUpdateAcademic ⟨.ok, sup, now⟩ a sys).2).db.academics) := by
  rw [addOrUpdate_ok_academics ⟨.ok, sup, now⟩ rfl a sys hname]
  cases hl : lookupA (normalizeNameKey a.name) sys.db.academics with
  | some e =>
    refine catalogWF_of_keyNames _ _ ?_ hwf
    exact (keyNames_updateA _ _ _ (fun r0 h0 => by
      rw [hl] at h0; cases h0; rfl)).symm
  | none =>
    have hkey : (normalizeNameKey a.name) ∉ sys.db.academics.map Prod.fst :=
      lookupA_none_notmem _ _ hl
    constructor
    · rw [List.map_append]
      simp only [List.map_cons, List.map_nil]
      rw [List.nodup_append]
      exact ⟨hwf.1, List.nodup_singleton _, by simpa using fun h => hkey h⟩
    · intro p hp
      rcases List.mem_append.mp hp with h | h
      · exact hwf.2 p h
      · rcases List.mem_singleton.mp h with rfl
        exact ⟨rfl, hname⟩

/-- Claim C2 (amended): the reciprocal propagation is performed by
`enrichDatabase`: after a successful call on a well-formed store, every
name in the candidate's connections that `getAcademic` resolves in the
resulting store resolves to a record carrying the candidate's name. -/
theorem enrichDatabase_reciprocal (sup : Bool) (now : Int) (a : Academic) (sys : Sys)
    (hwf : CatalogWF sys.db.academics) (hname : a.name ≠ "") :
    (enrichDatabase ⟨.ok, sup, now⟩ a sys).1 = true ∧
    (∀ b ∈ a.connections, ∀ k r,
      getAcademicEntry b ((enrichDatabase ⟨.ok, sup, now⟩ a sys).2).db.academics
          = some (k, r) →
      a.name ∈ r.connections) := by
  unfold enrichDatabase
  rw [if_neg hname]
  cases haou : addOrUpdateAcademic ⟨.ok, sup, now⟩ a sys with
  | mk bv sys1 =>
    have hbv : bv = true := by
      have h := addOrUpdate_ok_fst ⟨.ok, sup, now⟩ a sys hname
      rw [haou] at h
      exact h
    subst hbv
    dsimp only
    have hwf1 : CatalogWF sys1.db.academics := by
      have h := addOrUpdate_ok_wf sup now a sys hwf hname
      rw [haou] at h
      exact h
    have hacs2 : ((addNoveltyTile ⟨.ok, sup, now⟩
        { title := "Database Enriched: " ++ a.name,
          content := "New information about " ++ a.name ++
            " has been added to the database from DeepSearch.",
          date := some now, type := "academic" } sys1).2).db.academics
        = sys1.db.academics := addNoveltyTile_ok_academics ⟨.ok, sup, now⟩ rfl _ sys1
    have hwf2 : CatalogWF (((addNoveltyTile ⟨.ok, sup, now⟩
        { title := "Database Enriched: " ++ a.name,
          content := "New information about " ++ a.name ++
            " has been added to the database from DeepSearch.",
          date := some now, type := "academic" } sys1).2).db.academics) := by
      rw [hacs2]; exact hwf1
    refine ⟨rfl, ?_⟩
    intro b hb k r hget
    by_cases hc : a.connections.length > 0
    · rw [if_pos hc] at hget
      have hloop := enrichLoop_post sup now a.name a.connections _ hwf2
      have h1 : resolveKey b (keyNames
          ((a.connections.foldl (enrichConnStep ⟨.ok, sup, now⟩ a.name)
            ((addNoveltyTile ⟨.ok, sup, now⟩
              { title := "Database Enriched: " ++ a.name,
                content := "New information about " ++ a.name ++
                  " has been added to the database from DeepSearch.",
                date := some now, type := "academic" } sys1).2)).db.academics))
          = some k := by
        rw [← getEntry_map_fst, hget]
        rfl
      rw [hloop.1] at h1
      have h2 := hloop.2.2.2 b hb k h1
      have h3 := getEntry_lookup b _ hloop.2.1 k r hget
      simp only [connAt, h3] at h2
      exact h2
    · rw [if_neg hc] at hget
      have : a.connections = [] := by
        simpa using List.length_eq_zero.mp (by omega)
      rw [this] at hb
      simp at hb

end KP
namespace KP

def c2b : Academic := ⟨"B", "", [], [], [], []⟩
def c2a : Academic := ⟨"A", "", [], [], [], ["B"]⟩
def c2sys : Sys := ⟨⟨[("b", c2b)], [], [], [], []⟩, ⟨none, none, none, none, none⟩⟩

/-- Claim C2, literal reading refuted: `addOrUpdateAcademic` alone succeeds
on a candidate whose connections name an existing academic, yet the
existing academic's record gains no reciprocal connection (the propagation
lives in `enrichDatabase`, which calls `addOrUpdateAcademic` and then
walks the connections itself). -/
theorem c2_counterexample :
    (addOrUpdateAcademic ⟨.ok, true, 0⟩ c2a c2sys).1 = true ∧
    "B" ∈ c2a.connections ∧
    (getAcademic "B" ((addOrUpdateAcademic ⟨.ok, true, 0⟩ c2a c2sys).2).db.academics
        = some c2b) ∧
    "A" ∉ c2b.connections := by
  refine ⟨?_, ?_, ?_, ?_⟩ <;> decide

theorem enrichDatabase_reciprocal_witness :
    (enrichDatabase ⟨.ok, true, 0⟩ c2a c2sys).1 = true ∧
    (∀ b ∈ c2a.connections, ∀ k r,
      getAcademicEntry b ((enrichDatabase ⟨.ok, true, 0⟩ c2a c2sys).2).db.academics
          = some (k, r) →
      c2a.name ∈ r.connections) :=
  enrichDatabase_reciprocal true 0 c2a c2sys ⟨by decide, by decide⟩ (by decide)

end KP
